import Mathlib

/-!
# Campus navigation: path search, direction extraction and route session

A shallow embedding of `src/Js/navigation.js`.

Modelling conventions.

* JavaScript objects used as dictionaries (`graph`, `cameFrom`, `gScore`,
  `fScore`) are finite maps keyed by strings.  Inherited members of
  `Object.prototype` are outside the model: node ids are taken not to name one.
* JavaScript numbers are an arbitrary carrier `R` with the operations the file
  uses (`+`, `-`, `*`, `/`, `<`) and the members of `Math` it calls, bundled in
  `JSMath`.  The definitions assume no law about them; theorems that need
  exact arithmetic say so in their hypotheses: the reals, with `Math.hypot`
  the Euclidean norm, `Math.atan2` the two-argument arctangent `Complex.arg`,
  `Math.abs` the absolute value and `Math.PI` the number π.  Those theorems
  say nothing about rounding.  Runs in which a NaN arises use the carrier
  `GridNum`; runs in which rounding decides the result use the carrier `Dbl`,
  the finite doubles with every operation rounded to the nearest double.
  `Infinity` is the top element of `WithTop R`: the scores of the search start
  there, while a distance and a sum of distances are members of `R`, so a
  run of the search in which `Math.hypot` or a sum gives `Infinity` or NaN is
  outside the model.
* A `while` loop is a recursion on a fuel counter; running out of fuel is the
  fault `Fault.outOfFuel`, which no JavaScript run produces.
* Dereferencing `undefined` (`graph[id].x` for an id that is not a key) throws
  a `TypeError`, modelled as `Fault.typeError`.
* The module-level variables `activeDirections`, `currentStepIndex`,
  `currentTargetNode` and `startNode` form the record `Session`, threaded
  through the public functions; `graph` and `userHeading`, which those
  functions only read, are parameters.
-/

namespace Navigation

/-- Ways in which a run of the model stops without a value. -/
inductive Fault
  | typeError
  | outOfFuel
  deriving DecidableEq, Repr

/-- Members of the JavaScript `Math` object used by the program. -/
structure JSMath (R : Type) where
  hypot : R → R → R
  atan2 : R → R → R
  abs : R → R
  PI : R

/-- A value of the `graph` dictionary: `{ x, y, neighbors[] }`. -/
structure Node (R : Type) where
  x : R
  y : R
  neighbors : List String

/-- The `graph` dictionary: `{ nodeId: { x, y, neighbors[] } }`. -/
abbrev Graph (R : Type) := List (String × Node R)

/-- The expression `graph[id]`: the node, or `undefined` (`none`).  Only own
keys are looked up: an id that names an inherited member of
`Object.prototype`, such as `constructor`, is outside the model. -/
def getNode {R : Type} (graph : Graph R) (id : String) : Option (Node R) :=
  List.lookup id graph

/-- A plain `{ x, y }` vector. -/
structure Vec (R : Type) where
  x : R
  y : R

/-- The action label of a direction step. -/
inductive Action
  | START_FORWARD
  | FORWARD
  | BACK
  | LEFT
  | RIGHT
  deriving DecidableEq, Repr

/-- A direction step `{ from, to, action }`. -/
structure Step where
  from_ : String
  to_ : String
  action : Action
  deriving DecidableEq, Repr

/-- The mutable module-level variables of the route session.  The step index
is a natural number: it only grows by `currentStepIndex++`, far inside the
range in which a JavaScript number counts exactly. -/
structure Session where
  activeDirections : List Step
  currentStepIndex : Nat
  currentTargetNode : Option String
  startNode : String
  deriving DecidableEq, Repr

/-- How a call of a public function ends: it returns a value or it throws. -/
inductive Outcome (α : Type)
  | ret (a : α)
  | throw (f : Fault)
  deriving DecidableEq, Repr

deriving instance DecidableEq for Except

section Search

variable {R : Type} [Zero R] [Add R] [Sub R] [LT R] [@DecidableRel R (· < ·)]

/-- The function `heuristic(a, b)`; either argument may be `undefined`. -/
def heuristic (M : JSMath R) (a b : Option (Node R)) : Except Fault R :=
  match b, a with
  | some b, some a => .ok (M.hypot (b.x - a.x) (b.y - a.y))
  | _, _ => .error .typeError

/-- The local variables of `aStar`.  `openSet` lists the members of the
JavaScript `Set` in insertion order.  Every read of `gScore` or `fScore` is at
a key of `graph`, where the initial value is `Infinity`, so both are total
maps whose default is `⊤`. -/
structure SearchState (R : Type) where
  openSet : List String
  cameFrom : String → Option String
  gScore : String → WithTop R
  fScore : String → WithTop R

/-- The method `openSet.add(id)`: a member keeps its place, a new id goes last. -/
def setAdd (s : List String) (id : String) : List String :=
  if id ∈ s then s else s ++ [id]

/-- The expression `[...openSet].reduce((a, b) => fScore[a] < fScore[b] ? a : b)`
on a set whose first member is `a` and whose other members are `rest`. -/
def pickCurrent (fScore : String → WithTop R) (a : String) (rest : List String) : String :=
  rest.foldl (fun a b => if fScore a < fScore b then a else b) a

/-- The loop of `reconstructPath`: `while (cameFrom[current])`.  The test is
a truthiness test, so it stops at `undefined` and at the empty string.  The
dictionary `cameFrom` is read at own keys only: an id that names an inherited
member of `Object.prototype` is outside the model. -/
def reconstructLoop (cameFrom : String → Option String) :
    Nat → String → List String → Except Fault (List String)
  | 0, _, _ => .error .outOfFuel
  | fuel + 1, current, path =>
    match cameFrom current with
    | none => .ok path
    | some prev =>
      if prev = "" then .ok path
      else reconstructLoop cameFrom fuel prev (prev :: path)

/-- The function `reconstructPath(cameFrom, current)`. -/
def reconstructPath (cameFrom : String → Option String) (fuel : Nat) (current : String) :
    Except Fault (List String) :=
  reconstructLoop cameFrom fuel current [current]

/-- One pass of the body of `for (const neighbor of graph[current].neighbors)`.
The distance `d` is a member of `R` and so is finite: a run in which
`Math.hypot` gives `Infinity` or NaN is outside the model. -/
def relax (M : JSMath R) (graph : Graph R) (goal current : String)
    (st : SearchState R) (neighbor : String) : Except Fault (SearchState R) :=
  match heuristic M (getNode graph current) (getNode graph neighbor) with
  | .error e => .error e
  | .ok d =>
    let tentativeG : WithTop R := st.gScore current + (d : WithTop R)
    if tentativeG < st.gScore neighbor then
      match heuristic M (getNode graph neighbor) (getNode graph goal) with
      | .error e => .error e
      | .ok h =>
        .ok { openSet := setAdd st.openSet neighbor
              cameFrom := Function.update st.cameFrom neighbor (some current)
              gScore := Function.update st.gScore neighbor tentativeG
              fScore := Function.update st.fScore neighbor (tentativeG + (h : WithTop R)) }
    else .ok st

/-- The whole `for (const neighbor of ...)` loop over a list of neighbors. -/
def relaxAll (M : JSMath R) (graph : Graph R) (goal current : String) :
    SearchState R → List String → Except Fault (SearchState R)
  | st, [] => .ok st
  | st, neighbor :: rest =>
    match relax M graph goal current st neighbor with
    | .error e => .error e
    | .ok st1 => relaxAll M graph goal current st1 rest

/-- The loop `while (openSet.size > 0)` of `aStar`, with the `return null`
that follows it.  `rfuel` is the fuel handed to `reconstructPath`. -/
def aStarLoop (M : JSMath R) (graph : Graph R) (goal : String) (rfuel : Nat) :
    Nat → SearchState R → Except Fault (Option (List String))
  | 0, _ => .error .outOfFuel
  | fuel + 1, st =>
    match st.openSet with
    | [] => .ok none
    | a :: rest =>
      let current := pickCurrent st.fScore a rest
      if current = goal then
        match reconstructPath st.cameFrom rfuel current with
        | .error e => .error e
        | .ok path => .ok (some path)
      else
        match getNode graph current with
        | none => .error .typeError
        | some node =>
          match relaxAll M graph goal current
              { st with openSet := st.openSet.erase current } node.neighbors with
          | .error e => .error e
          | .ok st1 => aStarLoop M graph goal rfuel fuel st1

/-- The function `aStar(start, goal)`: `some path`, or `none` for `null`. -/
def aStar (M : JSMath R) (graph : Graph R) (fuel : Nat) (start goal : String) :
    Except Fault (Option (List String)) :=
  match heuristic M (getNode graph start) (getNode graph goal) with
  | .error e => .error e
  | .ok h =>
    aStarLoop M graph goal fuel fuel
      { openSet := [start]
        cameFrom := fun _ => none
        gScore := Function.update (fun _ => ⊤) start ((0 : R) : WithTop R)
        fScore := Function.update (fun _ => ⊤) start (h : WithTop R) }

end Search

section Directions

variable {R : Type} [Zero R] [Add R] [Sub R] [Mul R] [Div R] [NatCast R]
  [LT R] [@DecidableRel R (· < ·)]

/-- The function `normalize(v)`. -/
def normalize (M : JSMath R) (v : Vec R) : Vec R :=
  let mag := M.hypot v.x v.y
  { x := v.x / mag, y := v.y / mag }

/-- The function `signedAngle(v1, v2)`, in degrees. -/
def signedAngle (M : JSMath R) (v1 v2 : Vec R) : R :=
  let dot := v1.x * v2.x + v1.y * v2.y
  let det := v1.x * v2.y - v1.y * v2.x
  M.atan2 det dot * (((180 : Nat) : R) / M.PI)

/-- The function `directionFromHeading(heading, movement)`. -/
def directionFromHeading (M : JSMath R) (heading movement : Vec R) : Action :=
  let angle := signedAngle M heading movement
  if M.abs angle < ((20 : Nat) : R) then .FORWARD
  else if ((160 : Nat) : R) < M.abs angle then .BACK
  else if (0 : R) < angle then .LEFT
  else .RIGHT

/-- The loop of `extractDirections` from index `i` on, where the argument list
starts at `path[i - 1]` and `heading` is the heading on entry. -/
def extractLoop (M : JSMath R) (graph : Graph R) :
    Nat → Vec R → List String → Except Fault (List Step)
  | i, heading, from_ :: to_ :: rest =>
    match getNode graph to_, getNode graph from_ with
    | some t, some f =>
      let movement : Vec R := { x := t.x - f.x, y := t.y - f.y }
      let action := if i = 1 then Action.START_FORWARD
        else directionFromHeading M heading movement
      match extractLoop M graph (i + 1) (normalize M movement) (to_ :: rest) with
      | .error e => .error e
      | .ok steps => .ok ({ from_ := from_, to_ := to_, action := action } :: steps)
    | _, _ => .error .typeError
  | _, _, [_] => .ok []
  | _, _, [] => .ok []

/-- The function `extractDirections(path)`. -/
def extractDirections (M : JSMath R) (graph : Graph R) (userHeading : Vec R)
    (path : List String) : Except Fault (List Step) :=
  extractLoop M graph 1 userHeading path

end Directions

section RouteSession

variable {R : Type} [Zero R] [Add R] [Sub R] [Mul R] [Div R] [NatCast R]
  [LT R] [@DecidableRel R (· < ·)]

/-- The function `setStartNode(nodeId)`. -/
def setStartNode (graph : Graph R) (s : Session) (nodeId : String) : Session :=
  match getNode graph nodeId with
  | none => s
  | some _ => { s with startNode := nodeId }

/-- The function `navigateTo(destination)`: the session after the call and
how the call ended.  The assignments to `activeDirections` and
`currentStepIndex` precede the read of `activeDirections[0].to`, so they
survive when that read throws. -/
def navigateTo (M : JSMath R) (graph : Graph R) (fuel : Nat) (userHeading : Vec R)
    (s : Session) (destination : String) : Session × Outcome (Option Step) :=
  match getNode graph destination with
  | none => (s, .ret none)
  | some _ =>
    match aStar M graph fuel s.startNode destination with
    | .error e => (s, .throw e)
    | .ok none => (s, .ret none)
    | .ok (some path) =>
      match extractDirections M graph userHeading path with
      | .error e => (s, .throw e)
      | .ok steps =>
        let s1 : Session := { s with activeDirections := steps, currentStepIndex := 0 }
        match steps with
        | [] => (s1, .throw .typeError)
        | first :: _ => ({ s1 with currentTargetNode := some first.to_ }, .ret (some first))

/-- The function `advanceStep()`: the session after the call and the value
returned (`none` for `null`). -/
def advanceStep (s : Session) : Session × Option Step :=
  let i := s.currentStepIndex + 1
  let s1 : Session := { s with currentStepIndex := i }
  if h : s.activeDirections.length ≤ i then (s1, none)
  else
    let step := s.activeDirections.get ⟨i, Nat.lt_of_not_le h⟩
    ({ s1 with currentTargetNode := some step.to_ }, some step)

/-- The function `onNodeReached(nodeId)`. -/
def onNodeReached (graph : Graph R) (s : Session) (nodeId : String) :
    Session × Option Step :=
  if s.currentTargetNode ≠ some nodeId then (s, none)
  else advanceStep (setStartNode graph s nodeId)

end RouteSession

/-- An exact stand-in for `Math` over the integers, with the taxicab norm for
`hypot` and a constant `atan2`; used to run the model on concrete inputs. -/
def taxicabMath : JSMath Int where
  hypot := fun a b => a.natAbs + b.natAbs
  atan2 := fun _ _ => 0
  abs := fun a => a.natAbs
  PI := 3

/-- The sample map of the specification: GATE(0,0), A(0,10), B(10,10) with
the edges GATE-A and A-B. -/
def sampleGraph : Graph Int :=
  [("GATE", ⟨0, 0, ["A"]⟩), ("A", ⟨0, 10, ["GATE", "B"]⟩), ("B", ⟨10, 10, ["A"]⟩)]

/-- The initial values of the module-level session variables. -/
def initialSession : Session :=
  { activeDirections := [], currentStepIndex := 0, currentTargetNode := none,
    startNode := "GATE" }

/-- The initial value of `userHeading`. -/
def initialHeading : Vec Int := { x := 0, y := -1 }

/-- The sample map with one more node, C(20,20), that no edge touches. -/
def islandGraph : Graph Int :=
  sampleGraph ++ [("C", ⟨20, 20, []⟩)]

/-- The session after `navigateTo("A")` on the sample map. -/
def routeToA : Session :=
  (navigateTo taxicabMath sampleGraph 10 initialHeading initialSession "A").1

/-- The session after `navigateTo("B")` on the sample map. -/
def routeToB : Session :=
  (navigateTo taxicabMath sampleGraph 10 initialHeading initialSession "B").1

/-- States of the route session once a route has been installed: the state
left by a `navigateTo` that returned a step, and every state reached from it
by further calls of the three public functions. -/
inductive ActiveRoute {R : Type} [Zero R] [Add R] [Sub R] [Mul R] [Div R] [NatCast R]
    [LT R] [@DecidableRel R (· < ·)]
    (M : JSMath R) (graph : Graph R) (fuel : Nat) (userHeading : Vec R) : Session → Prop
  | installed (s0 : Session) (d : String) (s : Session) (first : Step) :
      navigateTo M graph fuel userHeading s0 d = (s, .ret (some first)) →
      ActiveRoute M graph fuel userHeading s
  | advanced (s : Session) :
      ActiveRoute M graph fuel userHeading s →
      ActiveRoute M graph fuel userHeading (advanceStep s).1
  | reached (s : Session) (n : String) :
      ActiveRoute M graph fuel userHeading s →
      ActiveRoute M graph fuel userHeading (onNodeReached graph s n).1
  | renavigated (s : Session) (d : String) :
      ActiveRoute M graph fuel userHeading s →
      ActiveRoute M graph fuel userHeading (navigateTo M graph fuel userHeading s d).1

/-- The current target, when there is one, and the end of every installed
step are keys of the graph. -/
def RouteKnown {R : Type} (graph : Graph R) (s : Session) : Prop :=
  (∀ t, s.currentTargetNode = some t → (getNode graph t).isSome = true) ∧
  (∀ st ∈ s.activeDirections, (getNode graph st.to_).isSome = true)

/-! ## Graph-side notions used to state the search claims -/

/-- The length `Math.hypot(b.x - a.x, b.y - a.y)` of the segment between the
positions of `u` and `v`; `0` when one of them is not a key of the graph. -/
def edgeLength {R : Type} [Zero R] [Sub R] (M : JSMath R) (graph : Graph R)
    (u v : String) : R :=
  match getNode graph u, getNode graph v with
  | some a, some b => M.hypot (b.x - a.x) (b.y - a.y)
  | _, _ => 0

/-- Whether `v` is listed in `graph[u].neighbors`. -/
def isEdge {R : Type} (graph : Graph R) (u v : String) : Bool :=
  match getNode graph u with
  | some n => decide (v ∈ n.neighbors)
  | none => false

/-- Whether each node of the sequence is listed as a neighbor of the one before. -/
def followsEdges {R : Type} (graph : Graph R) : List String → Bool
  | u :: v :: rest => isEdge graph u v && followsEdges graph (v :: rest)
  | _ => true

/-- Whether `path` starts at `start`, ends at `goal` and follows neighbor lists. -/
def isRoute {R : Type} (graph : Graph R) (start goal : String) (path : List String) : Bool :=
  decide (path.head? = some start) && decide (path.getLast? = some goal) &&
    followsEdges graph path

/-- The sum of the lengths of the segments between consecutive nodes. -/
def pathLength {R : Type} [Zero R] [Add R] [Sub R] (M : JSMath R) (graph : Graph R) :
    List String → R
  | u :: v :: rest => edgeLength M graph u v + pathLength M graph (v :: rest)
  | _ => 0

/-- Whether every id listed as a neighbor of a node of the graph is a key. -/
def neighborsKnown {R : Type} (graph : Graph R) : Bool :=
  graph.all fun entry =>
    match getNode graph entry.1 with
    | some n => n.neighbors.all fun v => (getNode graph v).isSome
    | none => true

/-! ### Walks listed from their end back to the start -/

/-- `RevWalk graph start l`: the list `l`, read from its last element to its
head, is a walk from `start` along neighbor lists. -/
def RevWalk {R : Type} (graph : Graph R) (start : String) : List String → Prop
  | [] => False
  | [x] => x = start
  | x :: y :: rest => isEdge graph y x = true ∧ RevWalk graph start (y :: rest)

/-- The length of a walk listed from its end back to the start. -/
def revLength {R : Type} [Zero R] [Add R] [Sub R] (M : JSMath R) (graph : Graph R) :
    List String → R
  | x :: y :: rest => edgeLength M graph y x + revLength M graph (y :: rest)
  | _ => 0

/-- `RevChain cameFrom start l`: each element of `l` but the last has the
next one as its `cameFrom` entry, and the last is `start`. -/
def RevChain (cameFrom : String → Option String) (start : String) : List String → Prop
  | [] => False
  | [x] => x = start
  | x :: y :: rest => cameFrom x = some y ∧ RevChain cameFrom start (y :: rest)

/-- A node is closed when it has a finite `gScore` and is not in the open set:
it has been expanded. -/
def closedAt {R : Type} [LT R] (st : SearchState R) (v : String) : Prop :=
  st.gScore v < ⊤ ∧ v ∉ st.openSet

/-- The invariant of the search loop under exact arithmetic.  `cur` is the
node being expanded and `pend` the part of its neighbor list still to be relaxed. -/
structure SearchInv {R : Type} [LinearOrderedAddCommGroup R] (M : JSMath R)
    (graph : Graph R) (start goal : String) (st : SearchState R)
    (cur : String) (pend : List String) : Prop where
  nodup : st.openSet.Nodup
  known : ∀ v, st.gScore v < ⊤ → (getNode graph v).isSome = true
  openFin : ∀ v ∈ st.openSet, st.gScore v < ⊤
  gStart : st.gScore start = ((0 : R) : WithTop R)
  cfStart : st.cameFrom start = none
  fEq : ∀ v, st.gScore v < ⊤ →
    st.fScore v = st.gScore v + ((edgeLength M graph v goal : R) : WithTop R)
  goalOpen : st.gScore goal < ⊤ → goal ∈ st.openSet
  chain : ∀ v, st.gScore v < ⊤ → ∃ p, RevChain st.cameFrom start (v :: p) ∧
    (∀ u ∈ p, closedAt st u) ∧ (v :: p).Nodup ∧ RevWalk graph start (v :: p) ∧
    st.gScore v = ((revLength M graph (v :: p) : R) : WithTop R)
  opt : ∀ u, closedAt st u → ∀ rw, RevWalk graph start (u :: rw) →
    st.gScore u ≤ ((revLength M graph (u :: rw) : R) : WithTop R)
  relaxed : ∀ u, closedAt st u → ∀ v, isEdge graph u v = true →
    (u = cur ∧ v ∈ pend) ∨
      st.gScore v ≤ st.gScore u + ((edgeLength M graph u v : R) : WithTop R)

/-- What the loop of `aStar` returns under exact arithmetic: `null` only when
no walk reaches the goal; otherwise the part of a shortest walk that
`reconstructPath` walked back before the first falsy `cameFrom` entry. -/
def SearchPost {R : Type} [LinearOrderedAddCommGroup R] (M : JSMath R) (graph : Graph R)
    (start goal : String) : Option (List String) → Prop
  | none => ∀ rw, ¬ RevWalk graph start (goal :: rw)
  | some path => ∃ (rc : List String) (k : Nat),
      RevWalk graph start (goal :: rc) ∧
      (∀ u ∈ rc, (getNode graph u).isSome = true) ∧
      path = (rc.take k).reverse ++ [goal] ∧
      (k = rc.length ∨ rc[k]? = some "") ∧
      ∀ rw, RevWalk graph start (goal :: rw) →
        revLength M graph (goal :: rc) ≤ revLength M graph (goal :: rw)

/-- The sample map over the reals. -/
def sampleGraphReal : Graph ℝ :=
  [("GATE", ⟨0, 0, ["A"]⟩), ("A", ⟨0, 10, ["GATE", "B"]⟩), ("B", ⟨10, 10, ["A"]⟩)]

/-- The sample map over the reals with one more node, C(20,20), that no edge touches. -/
def islandGraphReal : Graph ℝ :=
  sampleGraphReal ++ [("C", ⟨20, 20, []⟩)]

/-- A session standing at the node whose id is the empty string. -/
def emptyIdSession : Session :=
  { activeDirections := [], currentStepIndex := 0, currentTargetNode := none, startNode := "" }

/-- A two-node map, with positions left open, whose first node has the empty
string as its id: "" at `(x0, y0)` and B at `(x1, y1)`, each listing the other. -/
def emptyIdMap {R : Type} (x0 y0 x1 y1 : R) : Graph R :=
  [("", ⟨x0, y0, ["B"]⟩), ("B", ⟨x1, y1, [""]⟩)]

/-- The part of the loop invariant that holds under any arithmetic: every
`cameFrom` entry follows an edge of the graph, and every node that is in the
open set or is a `cameFrom` entry is the start node or has an entry itself. -/
structure LinkInv {R : Type} (graph : Graph R) (start : String) (st : SearchState R) :
    Prop where
  edge : ∀ v u, st.cameFrom v = some u → isEdge graph u v = true
  back : ∀ v u, st.cameFrom v = some u → u = start ∨ ∃ w, st.cameFrom u = some w
  openLinked : ∀ v ∈ st.openSet, v = start ∨ ∃ w, st.cameFrom v = some w

/-- A map in which GATE lists the id X, which is not a key. -/
def danglingGraph : Graph Int :=
  [("GATE", ⟨0, 0, ["X", "A"]⟩), ("A", ⟨0, 10, ["GATE"]⟩)]

/-- The same map with the dangling reference removed. -/
def danglingRemoved : Graph Int :=
  [("GATE", ⟨0, 0, ["A"]⟩), ("A", ⟨0, 10, ["GATE"]⟩)]

/-- Numbers for concrete runs in which a NaN arises: the integers and one
NaN.  Every operation with a NaN operand gives NaN and every comparison with
a NaN is false, as in JavaScript.  Division is the integer quotient, exact on
the multiples the runs divide, and a zero divisor gives NaN: the runs divide
only `0 / 0` by zero (JavaScript gives an infinity for another dividend). -/
inductive GridNum
  | nan
  | fin (n : Int)
  deriving DecidableEq, Repr

instance : Zero GridNum := ⟨.fin 0⟩

instance : NatCast GridNum := ⟨fun n => .fin n⟩

instance : Add GridNum :=
  ⟨fun a b => match a, b with
    | .fin x, .fin y => .fin (x + y)
    | _, _ => .nan⟩

instance : Sub GridNum :=
  ⟨fun a b => match a, b with
    | .fin x, .fin y => .fin (x - y)
    | _, _ => .nan⟩

instance : Mul GridNum :=
  ⟨fun a b => match a, b with
    | .fin x, .fin y => .fin (x * y)
    | _, _ => .nan⟩

instance : Div GridNum :=
  ⟨fun a b => match a, b with
    | .fin x, .fin y => if y = 0 then .nan else .fin (x / y)
    | _, _ => .nan⟩

/-- The comparison `a < b` on `GridNum`, as a Boolean. -/
def GridNum.ltb : GridNum → GridNum → Bool
  | .fin x, .fin y => decide (x < y)
  | _, _ => false

instance : LT GridNum := ⟨fun a b => GridNum.ltb a b = true⟩

instance : DecidableRel (fun a b : GridNum => a < b) :=
  fun a b => inferInstanceAs (Decidable (GridNum.ltb a b = true))

/-- A stand-in for `Math` over `GridNum` that measures angles in degrees, so
that `Math.PI` is 180 and the factor `180 / Math.PI` is 1.  It is exact on
vectors parallel to an axis: `hypot` is the taxicab norm, and `atan2` gives
0, 90, 180 and -90 on the axes (0 at the origin) and the middle of the
quadrant elsewhere. -/
def gridMath : JSMath GridNum where
  hypot := fun a b => match a, b with
    | .fin x, .fin y => .fin (x.natAbs + y.natAbs)
    | _, _ => .nan
  atan2 := fun b a => match b, a with
    | .fin y, .fin x =>
      if y = 0 then (if x < 0 then .fin 180 else .fin 0)
      else if x = 0 then (if 0 < y then .fin 90 else .fin (-90))
      else if 0 < y then (if 0 < x then .fin 45 else .fin 135)
      else (if 0 < x then .fin (-45) else .fin (-135))
    | _, _ => .nan
  abs := fun a => match a with
    | .fin x => .fin x.natAbs
    | .nan => .nan
  PI := .fin 180

/-- A map with two nodes at the same position: GATE(0,0), A(0,10), A2(0,10),
B(-10,10), joined in that order. -/
def zeroStepGraph : Graph GridNum :=
  [("GATE", ⟨.fin 0, .fin 0, ["A"]⟩), ("A", ⟨.fin 0, .fin 10, ["A2"]⟩),
   ("A2", ⟨.fin 0, .fin 10, ["B"]⟩), ("B", ⟨.fin (-10), .fin 10, []⟩)]

/-- A chain S, "", B, C in which the second node has the empty string as its id. -/
def emptyMidGraph : Graph Int :=
  [("S", ⟨0, 0, [""]⟩), ("", ⟨1, 0, ["B"]⟩), ("B", ⟨2, 0, ["C"]⟩), ("C", ⟨3, 0, []⟩)]

/-- A session standing at S with no route. -/
def sessionAtS : Session :=
  { activeDirections := [], currentStepIndex := 0, currentTargetNode := none, startNode := "S" }

/-- States of the route session reached from a `navigateTo` that returned a
step by further calls of `onNodeReached` and `navigateTo` (whatever their
arguments and outcome), without direct calls of `advanceStep`. -/
inductive TrackedRoute {R : Type} [Zero R] [Add R] [Sub R] [Mul R] [Div R] [NatCast R]
    [LT R] [@DecidableRel R (· < ·)]
    (M : JSMath R) (graph : Graph R) (fuel : Nat) (userHeading : Vec R) : Session → Prop
  | installed (s0 : Session) (d : String) (s : Session) (first : Step) :
      navigateTo M graph fuel userHeading s0 d = (s, .ret (some first)) →
      TrackedRoute M graph fuel userHeading s
  | reached (s : Session) (n : String) :
      TrackedRoute M graph fuel userHeading s →
      TrackedRoute M graph fuel userHeading (onNodeReached graph s n).1
  | renavigated (s : Session) (d : String) :
      TrackedRoute M graph fuel userHeading s →
      TrackedRoute M graph fuel userHeading (navigateTo M graph fuel userHeading s d).1

/-- Each step ends where the next one starts. -/
def StepsLinked (steps : List Step) : Prop :=
  ∀ k a b, steps[k]? = some a → steps[k + 1]? = some b → a.to_ = b.from_

/-- When the step index points at a step, the current target is the `to` of
that step and the start node is its `from`. -/
def Aligned (s : Session) : Prop :=
  ∀ step, s.activeDirections[s.currentStepIndex]? = some step →
    s.currentTargetNode = some step.to_ ∧ s.startNode = step.from_

/-- Double-precision numbers for concrete runs in which rounding matters: one
NaN and the finite doubles, each written as the integer number of steps of
`2^-1074` (the smallest positive double) it is worth.  Every operation gives
the double nearest to the exact result, a tie going to the even significand.
An overflow and the division of a non-zero number by zero, which JavaScript
answers with an infinity, give NaN here, and the negative zero is not told
from zero: the runs below produce none of them. -/
inductive Dbl
  | nan
  | fin (units : Int)
  deriving DecidableEq, Repr

/-- The double `m * 2^-k`, for `k ≤ 1074` and `m` of at most 53 bits. -/
def dbl (m : Int) (k : Nat) : Dbl := .fin (m * 2 ^ (1074 - k))

/-- The search for `⌊log₂ n⌋` by bisection: `2^e` is known not to exceed `n`
(or `e` is 0), and the `k` remaining rounds try to add `2^(k-1)`, ..., 2, 1
to `e`. -/
def Dbl.log2Bits (n : Nat) : Nat → Nat → Nat
  | 0, e => e
  | k + 1, e =>
    if 2 ^ (e + 2 ^ k) ≤ n then Dbl.log2Bits n k (e + 2 ^ k)
    else Dbl.log2Bits n k e

/-- The exponent `⌊log₂ n⌋` of the leading bit of `n`, for `0 < n < 2^8192`
(the square of a finite double, counted in squares of the step, is below
`2^4196`); 0 for `n = 0`. -/
def Dbl.log2 (n : Nat) : Nat := Dbl.log2Bits n 13 0

/-- How many low bits a natural number loses when it is cut to the 53
significant bits of a double. -/
def Dbl.dropBits (n : Nat) : Nat := (Dbl.log2 n + 1) - 53

/-- The quotient `p / q` of two natural numbers, counted in steps of `2^-1074`,
rounded to the nearest double, a tie going to the even significand. -/
def Dbl.roundNat (p q : Nat) : Nat :=
  let e := Dbl.dropBits (p / q)
  let d := q * 2 ^ e
  let m := p / d
  let r := p % d
  let up := if d < 2 * r then true else if 2 * r < d then false else decide (m % 2 = 1)
  (if up then m + 1 else m) * 2 ^ e

/-- The double worth `r` steps of `2^-1074`, negated when `neg` holds.  The
largest double is worth `(2^53 - 1) * 2^2045` steps; a rounded magnitude of
`2^2098` steps or more has overflowed and gives NaN here (JavaScript gives an
infinity). -/
def Dbl.pack (neg : Bool) (r : Nat) : Dbl :=
  if 2 ^ 2098 ≤ r then .nan
  else if neg then .fin (-(r : Int))
  else .fin (r : Int)

/-- The quotient `p / q`, counted in steps of `2^-1074`, rounded to the nearest
double; rounding is symmetric about zero.  A zero divisor gives NaN. -/
def Dbl.round (p : Int) (q : Nat) : Dbl :=
  if q = 0 then .nan
  else Dbl.pack (decide (p < 0)) (Dbl.roundNat p.natAbs q)

/-- The integer square root, found bit by bit from bit `k - 1` down. -/
def Dbl.sqrtBits (n : Nat) : Nat → Nat → Nat
  | 0, r => r
  | k + 1, r =>
    if (r + 2 ^ k) * (r + 2 ^ k) ≤ n then Dbl.sqrtBits n k (r + 2 ^ k)
    else Dbl.sqrtBits n k r

/-- The integer square root `⌊√n⌋`. -/
def Dbl.isqrt (n : Nat) : Nat := Dbl.sqrtBits n (Dbl.log2 n / 2 + 1) 0

/-- The square root of `s`, rounded to the nearest double, a tie going to the
even significand; `s` counts squares of the step and the result counts steps. -/
def Dbl.roundSqrt (s : Nat) : Nat :=
  let e := Dbl.dropBits (Dbl.isqrt s)
  let m := Dbl.isqrt (s / 4 ^ e)
  let lhs := 4 * s
  let rhs := (2 * m + 1) * (2 * m + 1) * 4 ^ e
  let up := if rhs < lhs then true else if lhs < rhs then false else decide (m % 2 = 1)
  (if up then m + 1 else m) * 2 ^ e

instance : Zero Dbl := ⟨.fin 0⟩

/-- A numeric literal: the double nearest to the integer. -/
instance : NatCast Dbl := ⟨fun n => Dbl.round ((n : Int) * 2 ^ 1074) 1⟩

/-- The sum `a + b`: the exact sum of the two step counts, rounded. -/
instance : Add Dbl :=
  ⟨fun a b => match a, b with
    | .fin x, .fin y => Dbl.round (x + y) 1
    | _, _ => .nan⟩

/-- The difference `a - b`: the exact difference of the two step counts, rounded. -/
instance : Sub Dbl :=
  ⟨fun a b => match a, b with
    | .fin x, .fin y => Dbl.round (x - y) 1
    | _, _ => .nan⟩

/-- The product `a * b`: the exact product counts steps of `2^-2148`, so it
is divided by `2^1074` and rounded. -/
instance : Mul Dbl :=
  ⟨fun a b => match a, b with
    | .fin x, .fin y => Dbl.round (x * y) (2 ^ 1074)
    | _, _ => .nan⟩

/-- The quotient `a / b`: the exact quotient of the step counts, scaled by
`2^1074` and rounded, with the sign of the divisor moved to the dividend. -/
instance : Div Dbl :=
  ⟨fun a b => match a, b with
    | .fin x, .fin y =>
      if y < 0 then Dbl.round (-x * 2 ^ 1074) y.natAbs
      else Dbl.round (x * 2 ^ 1074) y.natAbs
    | _, _ => .nan⟩

/-- The comparison `a < b` on `Dbl`, as a Boolean. -/
def Dbl.ltb : Dbl → Dbl → Bool
  | .fin x, .fin y => decide (x < y)
  | _, _ => false

instance : LT Dbl := ⟨fun a b => Dbl.ltb a b = true⟩

instance : DecidableRel (fun a b : Dbl => a < b) :=
  fun a b => inferInstanceAs (Decidable (Dbl.ltb a b = true))

/-- The members of `Math` in double arithmetic.  `Math.hypot` is the Euclidean
norm rounded to the nearest double, `Math.abs` is exact and `Math.PI` is the
double nearest to π, 3.141592653589793.  `Math.atan2` is listed at the two
arguments the run on the boundary map reaches, each with the double nearest
to the exact angle:
`atan2(1761.312938570409, 4839.167527315465) = 0.3490658503988659` and
`atan2(17.10100716628343, 46.98463103929542) = 0.3490658503988658`;
elsewhere it is NaN. -/
def doubleMath : JSMath Dbl where
  hypot := fun a b => match a, b with
    | .fin x, .fin y => Dbl.pack false (Dbl.roundSqrt (x * x + y * y).natAbs)
    | _, _ => .nan
  atan2 := fun b a =>
    if b = dbl 7746336224441921 42 ∧ a = dbl 1330180241259847 38 then
      dbl 6288211335136391 54
    else if b = dbl 2406752796929195 47 ∧ a = dbl 3306249481886111 46 then
      dbl 6288211335136389 54
    else .nan
  abs := fun a => match a with
    | .fin x => .fin (x.natAbs : Nat)
    | .nan => .nan
  PI := dbl 884279719003555 48

/-- The node GATE of the boundary map, at (0, 0). -/
def boundaryGate : Node Dbl := ⟨0, 0, ["A"]⟩

/-- The node A of the boundary map, at (-76.125, -69.375). -/
def boundaryA : Node Dbl := ⟨dbl (-609) 3, dbl (-555) 3, ["GATE", "B"]⟩

/-- The node B of the boundary map, at
(-99.33321254463553, -113.6624572591724): 50 units from A, with the turn at A
at the edge between FORWARD and LEFT. -/
def boundaryB : Node Dbl :=
  ⟨dbl (-3494976710949491) 45, dbl (-7998284377475371) 46, ["A"]⟩

/-- A map on which the turn at A is 20 degrees to the left. -/
def boundaryGraph : Graph Dbl :=
  [("GATE", boundaryGate), ("A", boundaryA), ("B", boundaryB)]

/-! ## Facts about graphs, routes and lengths -/

section GraphFacts

variable {R : Type}

theorem getNode_isSome_iff_mem_keys (graph : Graph R) (id : String) :
    (getNode graph id).isSome = true ↔ id ∈ graph.map Prod.fst := by
  induction graph with
  | nil => simp [getNode]
  | cons e rest ih =>
    obtain ⟨k, n⟩ := e
    unfold getNode at ih ⊢
    by_cases h : id = k
    · subst h
      simp [List.lookup]
    · have h1 : (id == k) = false := by simpa using h
      simp [List.lookup, h1, ih, h]

theorem getNode_mem (graph : Graph R) (id : String) (n : Node R)
    (h : getNode graph id = some n) : (id, n) ∈ graph := by
  induction graph with
  | nil => simp [getNode] at h
  | cons e rest ih =>
    obtain ⟨k, m⟩ := e
    unfold getNode at ih h
    by_cases hk : id = k
    · subst hk
      simp [List.lookup] at h
      subst h
      exact List.mem_cons_self _ _
    · have h1 : (id == k) = false := by simpa using hk
      simp only [List.lookup, h1] at h
      exact List.mem_cons_of_mem _ (ih h)

theorem neighborsKnown_spec (graph : Graph R) (hwf : neighborsKnown graph = true)
    (u : String) (n : Node R) (hu : getNode graph u = some n) (v : String)
    (hv : v ∈ n.neighbors) : (getNode graph v).isSome = true := by
  unfold neighborsKnown at hwf
  rw [List.all_eq_true] at hwf
  have := hwf (u, n) (getNode_mem graph u n hu)
  simp only [hu, List.all_eq_true] at this
  exact this v hv

theorem isEdge_iff (graph : Graph R) (u v : String) :
    isEdge graph u v = true ↔ ∃ n, getNode graph u = some n ∧ v ∈ n.neighbors := by
  unfold isEdge
  cases h : getNode graph u with
  | none => simp
  | some n => simp

theorem isEdge_known (graph : Graph R) (hwf : neighborsKnown graph = true) (u v : String)
    (h : isEdge graph u v = true) :
    (getNode graph u).isSome = true ∧ (getNode graph v).isSome = true := by
  obtain ⟨n, hn, hv⟩ := (isEdge_iff graph u v).mp h
  exact ⟨by simp [hn], neighborsKnown_spec graph hwf u n hn v hv⟩

end GraphFacts

section PickFacts

variable {R : Type} [LinearOrder R]

/-- The node picked by the `reduce` is a member of the open set with the
least `fScore`. -/
theorem pickCurrent_spec (fScore : String → WithTop R) (rest : List String) :
    ∀ a : String, pickCurrent fScore a rest ∈ a :: rest ∧
      ∀ w ∈ a :: rest, fScore (pickCurrent fScore a rest) ≤ fScore w := by
  induction rest with
  | nil =>
    intro a
    simp [pickCurrent]
  | cons b tl ih =>
    intro a
    have hstep : pickCurrent fScore a (b :: tl) =
        pickCurrent fScore (if fScore a < fScore b then a else b) tl := by
      simp [pickCurrent, List.foldl]
    rw [hstep]
    by_cases hab : fScore a < fScore b
    · rw [if_pos hab]
      obtain ⟨hm, hle⟩ := ih a
      refine ⟨?_, ?_⟩
      · rcases List.mem_cons.mp hm with h | h
        · rw [h]; exact List.mem_cons_self _ _
        · exact List.mem_cons_of_mem _ (List.mem_cons_of_mem _ h)
      · intro w hw
        rcases List.mem_cons.mp hw with h | h
        · rw [h]; exact hle a (List.mem_cons_self _ _)
        · rcases List.mem_cons.mp h with h | h
          · rw [h]
            exact le_trans (hle a (List.mem_cons_self _ _)) (le_of_lt hab)
          · exact hle w (List.mem_cons_of_mem _ h)
    · rw [if_neg hab]
      obtain ⟨hm, hle⟩ := ih b
      refine ⟨List.mem_cons_of_mem _ hm, ?_⟩
      intro w hw
      rcases List.mem_cons.mp hw with h | h
      · rw [h]
        exact le_trans (hle b (List.mem_cons_self _ _)) (not_lt.mp hab)
      · exact hle w h

end PickFacts

section ReconstructFacts

/-- Along a chain of `cameFrom` entries that ends at `start`, the loop of
`reconstructPath` returns the part of the chain it walked before the first
falsy entry, in front of what it was given. -/
theorem reconstructLoop_chain (cameFrom : String → Option String) (start : String)
    (hstart : cameFrom start = none) :
    ∀ (rc : List String) (cur : String) (acc : List String) (fuel : Nat),
      RevChain cameFrom start (cur :: rc) → rc.length < fuel →
      ∃ k, k ≤ rc.length ∧
        reconstructLoop cameFrom fuel cur acc = .ok ((rc.take k).reverse ++ acc) ∧
        (k = rc.length ∨ rc[k]? = some "") := by
  intro rc
  induction rc with
  | nil =>
    intro cur acc fuel hc hf
    simp only [RevChain] at hc
    subst hc
    cases fuel with
    | zero => simp at hf
    | succ n =>
      refine ⟨0, le_refl _, ?_, Or.inl rfl⟩
      simp [reconstructLoop, hstart]
  | cons y rest ih =>
    intro cur acc fuel hc hf
    simp only [RevChain] at hc
    cases fuel with
    | zero => simp at hf
    | succ n =>
      by_cases hy : y = ""
      · refine ⟨0, Nat.zero_le _, ?_, Or.inr (by simp [hy])⟩
        simp [reconstructLoop, hc.1, hy]
      · obtain ⟨k, hk, hres, hend⟩ := ih y (y :: acc) n hc.2
          (by simp only [List.length_cons] at hf; omega)
        refine ⟨k + 1, by simp only [List.length_cons]; omega, ?_, ?_⟩
        · simp [reconstructLoop, hc.1, hy, hres]
        · rcases hend with h | h
          · exact Or.inl (by simp [h])
          · exact Or.inr (by simpa using h)

end ReconstructFacts

section LengthFacts

variable {R : Type} [AddCommMonoid R] [Sub R]

theorem pathLength_snoc (M : JSMath R) (graph : Graph R) (y x : String) :
    ∀ l : List String, pathLength M graph (l ++ [y, x]) =
      pathLength M graph (l ++ [y]) + edgeLength M graph y x := by
  intro l
  induction l with
  | nil => simp [pathLength]
  | cons a tl ih =>
    cases tl with
    | nil => simp [pathLength, add_assoc]
    | cons b tl2 =>
      have h1 : pathLength M graph (a :: b :: tl2 ++ [y, x]) =
          edgeLength M graph a b + pathLength M graph (b :: tl2 ++ [y, x]) := by
        simp [pathLength]
      have h2 : pathLength M graph (a :: b :: tl2 ++ [y]) =
          edgeLength M graph a b + pathLength M graph (b :: tl2 ++ [y]) := by
        simp [pathLength]
      rw [h1, h2, ih, add_assoc]

theorem pathLength_reverse (M : JSMath R) (graph : Graph R) :
    ∀ l : List String, pathLength M graph l.reverse = revLength M graph l := by
  intro l
  induction l with
  | nil => simp [pathLength, revLength]
  | cons x tl ih =>
    cases tl with
    | nil => simp [pathLength, revLength]
    | cons y rest =>
      have h1 : (x :: y :: rest).reverse = rest.reverse ++ [y, x] := by simp
      have h2 : (y :: rest).reverse = rest.reverse ++ [y] := by simp
      rw [h1, pathLength_snoc, ← h2, ih]
      simp [revLength, add_comm]

end LengthFacts

section WalkFacts

variable {R : Type}

theorem followsEdges_snoc (graph : Graph R) (y x : String) :
    ∀ l : List String, followsEdges graph (l ++ [y, x]) =
      (followsEdges graph (l ++ [y]) && isEdge graph y x) := by
  intro l
  induction l with
  | nil => simp [followsEdges]
  | cons a tl ih =>
    cases tl with
    | nil => simp [followsEdges]
    | cons b tl2 =>
      have h1 : followsEdges graph (a :: b :: tl2 ++ [y, x]) =
          (isEdge graph a b && followsEdges graph (b :: tl2 ++ [y, x])) := by
        simp [followsEdges]
      have h2 : followsEdges graph (a :: b :: tl2 ++ [y]) =
          (isEdge graph a b && followsEdges graph (b :: tl2 ++ [y])) := by
        simp [followsEdges]
      rw [h1, h2, ih, Bool.and_assoc]

/-- A walk listed from its end, read backwards, is a route from the start. -/
theorem revWalk_reverse (graph : Graph R) (start : String) :
    ∀ (l : List String), RevWalk graph start l →
      followsEdges graph l.reverse = true ∧ l.reverse.head? = some start := by
  intro l
  induction l with
  | nil => intro h; simp [RevWalk] at h
  | cons x tl ih =>
    intro h
    cases tl with
    | nil =>
      simp only [RevWalk] at h
      simp [followsEdges, h]
    | cons y rest =>
      simp only [RevWalk] at h
      obtain ⟨h1, h2⟩ := ih h.2
      have e1 : (x :: y :: rest).reverse = rest.reverse ++ [y, x] := by simp
      have e2 : (y :: rest).reverse = rest.reverse ++ [y] := by simp
      rw [e1, followsEdges_snoc, ← e2, h1, h.1]
      refine ⟨rfl, ?_⟩
      rw [e2] at h2
      cases hr : rest.reverse with
      | nil => rw [hr] at h2; simpa using h2
      | cons c cs => rw [hr] at h2; simpa using h2

/-- A route, read backwards, is a walk listed from its end. -/
theorem revWalk_of_route (graph : Graph R) (start goal : String) (p : List String)
    (h : isRoute graph start goal p = true) :
    ∃ rw, p.reverse = goal :: rw ∧ RevWalk graph start (goal :: rw) := by
  unfold isRoute at h
  simp only [Bool.and_eq_true, decide_eq_true_eq] at h
  obtain ⟨⟨hhead, hlast⟩, hf⟩ := h
  have key : ∀ (q : List String) (t : String), q.head? = some start →
      q.getLast? = some t → followsEdges graph q = true →
      ∃ rw, q.reverse = t :: rw ∧ RevWalk graph start (t :: rw) := by
    intro q
    induction q using List.reverseRecOn with
    | nil => intro t hh; simp at hh
    | append_singleton q1 x ih =>
      intro t hh hl hfe
      have hx : x = t := by simpa using hl
      subst hx
      induction q1 using List.reverseRecOn with
      | nil =>
        refine ⟨[], by simp, ?_⟩
        simp only [RevWalk]
        simpa using hh
      | append_singleton q2 y _ =>
        have e : q2 ++ [y] ++ [x] = q2 ++ [y, x] := by simp
        rw [e, followsEdges_snoc] at hfe
        simp only [Bool.and_eq_true] at hfe
        have hh2 : (q2 ++ [y]).head? = some start := by
          cases q2 with
          | nil => simpa using hh
          | cons c cs => simpa using hh
        obtain ⟨rw, hrw, hwalk⟩ := ih y hh2 (by simp) hfe.1
        refine ⟨y :: rw, ?_, ?_⟩
        · rw [List.reverse_append, hrw]; simp
        · simp only [RevWalk]
          exact ⟨hfe.2, hwalk⟩
  exact key p goal hhead hlast hf

end WalkFacts

/-! ## The search loop under exact arithmetic -/

section SetFacts

theorem mem_setAdd (s : List String) (v w : String) :
    w ∈ setAdd s v ↔ w ∈ s ∨ w = v := by
  unfold setAdd
  by_cases h : v ∈ s
  · rw [if_pos h]
    constructor
    · exact Or.inl
    · rintro (h1 | h1)
      · exact h1
      · rw [h1]; exact h
  · rw [if_neg h]
    simp

theorem nodup_setAdd (s : List String) (v : String) (h : s.Nodup) : (setAdd s v).Nodup := by
  unfold setAdd
  by_cases hv : v ∈ s
  · rw [if_pos hv]; exact h
  · rw [if_neg hv]
    rw [List.nodup_append]
    refine ⟨h, List.nodup_singleton v, ?_⟩
    intro a ha hb
    rw [List.mem_singleton] at hb
    subst hb
    exact hv ha

theorem revChain_congr (cf cf2 : String → Option String) (start : String) :
    ∀ l : List String, (∀ x ∈ l, cf2 x = cf x) → RevChain cf start l → RevChain cf2 start l := by
  intro l
  induction l with
  | nil => intro _ h; exact h
  | cons x tl ih =>
    intro hag h
    cases tl with
    | nil => exact h
    | cons y rest =>
      simp only [RevChain] at h ⊢
      refine ⟨?_, ih (fun z hz => hag z (List.mem_cons_of_mem _ hz)) h.2⟩
      rw [hag x (List.mem_cons_self _ _)]
      exact h.1

end SetFacts

section CostFacts

variable {R : Type} [LinearOrderedAddCommGroup R]

theorem heuristic_known (M : JSMath R) (graph : Graph R) (u v : String)
    (hu : (getNode graph u).isSome = true) (hv : (getNode graph v).isSome = true) :
    heuristic M (getNode graph u) (getNode graph v) = .ok (edgeLength M graph u v) := by
  obtain ⟨a, ha⟩ := Option.isSome_iff_exists.mp hu
  obtain ⟨b, hb⟩ := Option.isSome_iff_exists.mp hv
  simp [heuristic, edgeLength, ha, hb]

theorem edgeLength_nonneg (M : JSMath R) (graph : Graph R)
    (hnn : ∀ a b, 0 ≤ M.hypot a b) (u v : String) : 0 ≤ edgeLength M graph u v := by
  unfold edgeLength
  cases getNode graph u with
  | none => simp
  | some a =>
    cases getNode graph v with
    | none => simp
    | some b => exact hnn _ _

theorem revLength_nonneg (M : JSMath R) (graph : Graph R)
    (hnn : ∀ a b, 0 ≤ M.hypot a b) : ∀ l : List String, 0 ≤ revLength M graph l := by
  intro l
  induction l with
  | nil => simp [revLength]
  | cons x tl ih =>
    cases tl with
    | nil => simp [revLength]
    | cons y rest =>
      simp only [revLength]
      exact add_nonneg (edgeLength_nonneg M graph hnn y x) ih

/-- The straight-line length to the goal is consistent along every edge. -/
theorem edgeLength_triangle (M : JSMath R) (graph : Graph R)
    (hsub : ∀ a b c d, M.hypot (a + b) (c + d) ≤ M.hypot a c + M.hypot b d)
    (y x goal : String) (hy : (getNode graph y).isSome = true)
    (hx : (getNode graph x).isSome = true) (hg : (getNode graph goal).isSome = true) :
    edgeLength M graph y goal ≤ edgeLength M graph y x + edgeLength M graph x goal := by
  obtain ⟨a, ha⟩ := Option.isSome_iff_exists.mp hy
  obtain ⟨b, hb⟩ := Option.isSome_iff_exists.mp hx
  obtain ⟨c, hc⟩ := Option.isSome_iff_exists.mp hg
  simp only [edgeLength, ha, hb, hc]
  have h := hsub (b.x - a.x) (c.x - b.x) (b.y - a.y) (c.y - b.y)
  have e1 : b.x - a.x + (c.x - b.x) = c.x - a.x := by abel
  have e2 : b.y - a.y + (c.y - b.y) = c.y - a.y := by abel
  rw [e1, e2] at h
  exact h

theorem revLength_take_le (M : JSMath R) (graph : Graph R)
    (hnn : ∀ a b, 0 ≤ M.hypot a b) :
    ∀ (l : List String) (k : Nat), revLength M graph (l.take k) ≤ revLength M graph l := by
  intro l
  induction l with
  | nil => intro k; simp [revLength]
  | cons x tl ih =>
    intro k
    cases k with
    | zero =>
      simp only [List.take_zero]
      exact revLength_nonneg M graph hnn _
    | succ k1 =>
      cases tl with
      | nil => simp [revLength]
      | cons y rest =>
        cases k1 with
        | zero =>
          simp only [List.take_succ_cons, List.take_zero, revLength]
          exact add_nonneg (edgeLength_nonneg M graph hnn y x)
            (revLength_nonneg M graph hnn _)
        | succ k2 =>
          have := ih (k2 + 1)
          simp only [List.take_succ_cons, revLength] at this ⊢
          exact add_le_add_left this _

theorem fin_of_lt_top (a : WithTop R) (h : a < ⊤) : ∃ r : R, a = (r : WithTop R) := by
  obtain ⟨r, hr⟩ := WithTop.ne_top_iff_exists.mp (ne_of_lt h)
  exact ⟨r, hr.symm⟩

end CostFacts

section InitFacts

variable {R : Type} [LinearOrderedAddCommGroup R]

/-- The state in which `aStar` enters its loop satisfies the invariant. -/
theorem searchInv_init (M : JSMath R) (graph : Graph R) (start goal cur : String)
    (hstart : (getNode graph start).isSome = true) :
    SearchInv M graph start goal
      { openSet := [start]
        cameFrom := fun _ => none
        gScore := Function.update (fun _ => ⊤) start ((0 : R) : WithTop R)
        fScore := Function.update (fun _ => ⊤) start
          ((edgeLength M graph start goal : R) : WithTop R) } cur [] := by
  have hfin : ∀ v, Function.update (fun _ => (⊤ : WithTop R)) start ((0 : R) : WithTop R) v < ⊤ →
      v = start := by
    intro v hv
    by_contra hne
    rw [Function.update_noteq hne] at hv
    exact lt_irrefl _ hv
  have hnc : ∀ u, ¬ closedAt (R := R)
      { openSet := [start]
        cameFrom := fun _ => none
        gScore := Function.update (fun _ => ⊤) start ((0 : R) : WithTop R)
        fScore := Function.update (fun _ => ⊤) start
          ((edgeLength M graph start goal : R) : WithTop R) } u := by
    intro u hu
    have := hfin u hu.1
    subst this
    exact hu.2 (List.mem_singleton_self _)
  constructor
  · exact List.nodup_singleton _
  · intro v hv
    rw [hfin v hv]; exact hstart
  · intro v hv
    rw [List.mem_singleton] at hv
    subst hv
    simp only [Function.update_same]
    exact WithTop.coe_lt_top _
  · simp
  · rfl
  · intro v hv
    have := hfin v hv
    subst this
    simp only [Function.update_same]
    rw [← WithTop.coe_add, zero_add]
  · intro hg
    rw [hfin goal hg]
    exact List.mem_singleton_self _
  · intro v hv
    have := hfin v hv
    subst this
    refine ⟨[], ?_, ?_, List.nodup_singleton _, ?_, ?_⟩
    · simp [RevChain]
    · intro u hu; simp at hu
    · simp [RevWalk]
    · simp [revLength]
  · intro u hu; exact absurd hu (hnc u)
  · intro u hu; exact absurd hu (hnc u)

end InitFacts

section RelaxFacts

variable {R : Type} [LinearOrderedAddCommGroup R]

/-- One pass of the relaxation loop keeps the invariant, consumes the head of
the pending list and closes no node. -/
theorem relax_inv (M : JSMath R) (graph : Graph R) (start goal : String)
    (hnn : ∀ a b, 0 ≤ M.hypot a b)
    (hwf : neighborsKnown graph = true) (hgoal : (getNode graph goal).isSome = true)
    (st : SearchState R) (cur v : String) (pend : List String)
    (hinv : SearchInv M graph start goal st cur (v :: pend))
    (hcur : closedAt st cur) (hedge : isEdge graph cur v = true) :
    ∃ st1, relax M graph goal cur st v = .ok st1 ∧
      SearchInv M graph start goal st1 cur pend ∧
      (∀ w, closedAt st1 w ↔ closedAt st w) := by
  obtain ⟨hku, hkv⟩ := isEdge_known graph hwf cur v hedge
  have hd := heuristic_known M graph cur v hku hkv
  have hh := heuristic_known M graph v goal hkv hgoal
  obtain ⟨gc, hgc⟩ := fin_of_lt_top _ hcur.1
  by_cases hlt : st.gScore cur + ((edgeLength M graph cur v : R) : WithTop R) < st.gScore v
  · obtain ⟨pc, hchain_c, hclosed_c, hnodup_c, hwalk_c, hlen_c⟩ := hinv.chain cur hcur.1
    have hgc_eq : gc = revLength M graph (cur :: pc) := by
      rw [hgc] at hlen_c
      exact WithTop.coe_injective hlen_c
    have hvnc : ¬ closedAt st v := by
      intro hc
      have h1 := hinv.opt v hc (cur :: pc) ⟨hedge, hwalk_c⟩
      have h2 : revLength M graph (v :: cur :: pc) = gc + edgeLength M graph cur v := by
        simp only [revLength]
        rw [hgc_eq, add_comm]
      rw [h2, WithTop.coe_add, ← hgc] at h1
      exact absurd hlt (not_lt.mpr h1)
    have hvs : v ≠ start := by
      intro h
      rw [h, hinv.gStart, hgc, ← WithTop.coe_add, WithTop.coe_lt_coe] at hlt
      have h1 : 0 ≤ gc := by
        rw [hgc_eq]; exact revLength_nonneg M graph hnn _
      have h2 := edgeLength_nonneg M graph hnn cur start
      have := add_nonneg h1 h2
      exact absurd hlt (not_lt.mpr this)
    have hcv : cur ≠ v := by
      intro h
      rw [h] at hcur
      exact hvnc hcur
    have hclosed_ne : ∀ u, closedAt st u → u ≠ v := by
      intro u hu h
      rw [h] at hu
      exact hvnc hu
    have hiff : ∀ w, closedAt
        ({ openSet := setAdd st.openSet v
           cameFrom := Function.update st.cameFrom v (some cur)
           gScore := Function.update st.gScore v
             (st.gScore cur + ((edgeLength M graph cur v : R) : WithTop R))
           fScore := Function.update st.fScore v
             (st.gScore cur + ((edgeLength M graph cur v : R) : WithTop R) +
               ((edgeLength M graph v goal : R) : WithTop R)) } : SearchState R) w ↔
        closedAt st w := by
      intro w
      unfold closedAt
      by_cases hw : w = v
      · subst hw
        constructor
        · intro h
          exact absurd ((mem_setAdd _ _ _).mpr (Or.inr rfl)) h.2
        · intro h
          exact absurd h hvnc
      · simp only [Function.update_noteq hw, mem_setAdd, hw, or_false]
    refine ⟨{ openSet := setAdd st.openSet v
              cameFrom := Function.update st.cameFrom v (some cur)
              gScore := Function.update st.gScore v
                (st.gScore cur + ((edgeLength M graph cur v : R) : WithTop R))
              fScore := Function.update st.fScore v
                (st.gScore cur + ((edgeLength M graph cur v : R) : WithTop R) +
                  ((edgeLength M graph v goal : R) : WithTop R)) }, ?_, ?_, hiff⟩
    · simp [relax, hd, hh, hlt]
    · have htfin : st.gScore cur + ((edgeLength M graph cur v : R) : WithTop R) < ⊤ := by
        rw [hgc, ← WithTop.coe_add]
        exact WithTop.coe_lt_top _
      constructor
      · exact nodup_setAdd _ _ hinv.nodup
      · intro w hw
        by_cases hwv : w = v
        · rw [hwv]; exact hkv
        · simp only [Function.update_noteq hwv] at hw
          exact hinv.known w hw
      · intro w hw
        by_cases hwv : w = v
        · subst hwv
          simp only [Function.update_same]
          exact htfin
        · simp only [Function.update_noteq hwv]
          rcases (mem_setAdd _ _ _).mp hw with h | h
          · exact hinv.openFin w h
          · exact absurd h hwv
      · simp only [Function.update_noteq (Ne.symm hvs)]
        exact hinv.gStart
      · simp only [Function.update_noteq (Ne.symm hvs)]
        exact hinv.cfStart
      · intro w hw
        by_cases hwv : w = v
        · subst hwv
          simp only [Function.update_same]
        · simp only [Function.update_noteq hwv] at hw ⊢
          exact hinv.fEq w hw
      · intro hg
        by_cases hgv : goal = v
        · exact (mem_setAdd _ _ _).mpr (Or.inr hgv)
        · simp only [Function.update_noteq hgv] at hg
          exact (mem_setAdd _ _ _).mpr (Or.inl (hinv.goalOpen hg))
      · intro w hw
        by_cases hwv : w = v
        · subst hwv
          refine ⟨cur :: pc, ?_, ?_, ?_, ⟨hedge, hwalk_c⟩, ?_⟩
          · refine ⟨by simp, ?_⟩
            apply revChain_congr st.cameFrom _ start (cur :: pc) _ hchain_c
            intro x hx
            have hxne : x ≠ w := by
              rcases List.mem_cons.mp hx with h | h
              · rw [h]; exact hcv
              · exact hclosed_ne x (hclosed_c x h)
            simp only [Function.update_noteq hxne]
          · intro u hu
            rcases List.mem_cons.mp hu with h | h
            · rw [h]; exact (hiff cur).mpr hcur
            · exact (hiff u).mpr (hclosed_c u h)
          · rw [List.nodup_cons]
            refine ⟨?_, hnodup_c⟩
            intro hmem
            rcases List.mem_cons.mp hmem with h | h
            · exact hcv h.symm
            · exact hclosed_ne w (hclosed_c w h) rfl
          · simp only [Function.update_same, revLength]
            rw [hgc, ← WithTop.coe_add, hgc_eq, add_comm]
        · simp only [Function.update_noteq hwv] at hw
          obtain ⟨p, hc, hcl, hnd, hwalk, hlen⟩ := hinv.chain w hw
          refine ⟨p, ?_, ?_, hnd, hwalk, ?_⟩
          · apply revChain_congr st.cameFrom _ start (w :: p) _ hc
            intro x hx
            have hxne : x ≠ v := by
              rcases List.mem_cons.mp hx with h | h
              · rw [h]; exact hwv
              · exact hclosed_ne x (hcl x h)
            simp only [Function.update_noteq hxne]
          · intro u hu
            exact (hiff u).mpr (hcl u hu)
          · simp only [Function.update_noteq hwv]
            exact hlen
      · intro u hu rw hrw
        have hu0 := (hiff u).mp hu
        simp only [Function.update_noteq (hclosed_ne u hu0)]
        exact hinv.opt u hu0 rw hrw
      · intro u hu w hedge2
        have hu0 := (hiff u).mp hu
        have hune := hclosed_ne u hu0
        simp only [Function.update_noteq hune]
        by_cases hwv : w = v
        · subst hwv
          simp only [Function.update_same]
          by_cases huc : u = cur
          · subst huc
            exact Or.inr (le_refl _)
          · rcases hinv.relaxed u hu0 w hedge2 with h | h
            · exact absurd h.1 huc
            · right
              exact le_trans (le_of_lt hlt) h
        · simp only [Function.update_noteq hwv]
          rcases hinv.relaxed u hu0 w hedge2 with h | h
          · left
            refine ⟨h.1, ?_⟩
            rcases List.mem_cons.mp h.2 with h2 | h2
            · exact absurd h2 hwv
            · exact h2
          · exact Or.inr h
  · refine ⟨st, by simp [relax, hd, hlt], ?_, fun w => Iff.rfl⟩
    constructor
    · exact hinv.nodup
    · exact hinv.known
    · exact hinv.openFin
    · exact hinv.gStart
    · exact hinv.cfStart
    · exact hinv.fEq
    · exact hinv.goalOpen
    · exact hinv.chain
    · exact hinv.opt
    · intro u hu w hedge2
      rcases hinv.relaxed u hu w hedge2 with h | h
      · rcases List.mem_cons.mp h.2 with h2 | h2
        · right
          rw [h.1, h2]
          exact not_lt.mp hlt
        · exact Or.inl ⟨h.1, h2⟩
      · exact Or.inr h

end RelaxFacts

section ExpandFacts

variable {R : Type} [LinearOrderedAddCommGroup R]

/-- The whole relaxation loop over the neighbors of `cur` keeps the invariant
and closes no node. -/
theorem relaxAll_inv (M : JSMath R) (graph : Graph R) (start goal : String)
    (hnn : ∀ a b, 0 ≤ M.hypot a b)
    (hwf : neighborsKnown graph = true) (hgoal : (getNode graph goal).isSome = true)
    (cur : String) :
    ∀ (l : List String) (st : SearchState R),
      SearchInv M graph start goal st cur l → closedAt st cur →
      (∀ v ∈ l, isEdge graph cur v = true) →
      ∃ st1, relaxAll M graph goal cur st l = .ok st1 ∧
        SearchInv M graph start goal st1 cur [] ∧
        (∀ w, closedAt st1 w ↔ closedAt st w) := by
  intro l
  induction l with
  | nil =>
    intro st hinv _ _
    exact ⟨st, by simp [relaxAll], hinv, fun w => Iff.rfl⟩
  | cons v rest ih =>
    intro st hinv hcur hedges
    obtain ⟨st1, hr, hinv1, hiff1⟩ := relax_inv M graph start goal hnn hwf hgoal st cur v rest
      hinv hcur (hedges v (List.mem_cons_self _ _))
    obtain ⟨st2, hr2, hinv2, hiff2⟩ := ih st1 hinv1 ((hiff1 cur).mpr hcur)
      (fun w hw => hedges w (List.mem_cons_of_mem _ hw))
    refine ⟨st2, by simp [relaxAll, hr, hr2], hinv2, ?_⟩
    intro w
    rw [hiff2 w, hiff1 w]

/-- Along any walk from the start, either the walk has stayed among closed
nodes whose `gScore` it does not beat, or it has met the open set, whose best
`fScore` bounds its length plus the straight-line length to the goal. -/
theorem walk_bound (M : JSMath R) (graph : Graph R) (start goal : String)
    (hsub : ∀ a b c d, M.hypot (a + b) (c + d) ≤ M.hypot a c + M.hypot b d)
    (hwf : neighborsKnown graph = true) (hgoal : (getNode graph goal).isSome = true)
    (st : SearchState R) (c0 : String) (hinv : SearchInv M graph start goal st c0 [])
    (best : WithTop R) (hbest : ∀ w ∈ st.openSet, best ≤ st.fScore w) :
    ∀ (l : List String) (x : String), RevWalk graph start (x :: l) →
      (closedAt st x ∧ st.gScore x ≤ ((revLength M graph (x :: l) : R) : WithTop R)) ∨
      best ≤ ((revLength M graph (x :: l) + edgeLength M graph x goal : R) : WithTop R) := by
  intro l
  induction l with
  | nil =>
    intro x hx
    simp only [RevWalk] at hx
    subst hx
    by_cases hopen : x ∈ st.openSet
    · right
      have h1 := hbest x hopen
      have hfin : st.gScore x < ⊤ := hinv.openFin x hopen
      rw [hinv.fEq x hfin, hinv.gStart, ← WithTop.coe_add] at h1
      simpa [revLength] using h1
    · left
      refine ⟨⟨?_, hopen⟩, ?_⟩
      · rw [hinv.gStart]; exact WithTop.coe_lt_top _
      · rw [hinv.gStart]; simp [revLength]
  | cons y rest ih =>
    intro x hx
    simp only [RevWalk] at hx
    obtain ⟨hedge, hwalk⟩ := hx
    obtain ⟨hky, hkx⟩ := isEdge_known graph hwf y x hedge
    have hlen : revLength M graph (x :: y :: rest) =
        edgeLength M graph y x + revLength M graph (y :: rest) := by
      simp [revLength]
    rcases ih y hwalk with ⟨hcy, hgy⟩ | hb
    · have hrel := hinv.relaxed y hcy x hedge
      rcases hrel with h | h
      · exact absurd h.2 (List.not_mem_nil _)
      · have hgx : st.gScore x ≤ ((revLength M graph (x :: y :: rest) : R) : WithTop R) := by
          refine le_trans h ?_
          rw [hlen, WithTop.coe_add, add_comm]
          exact add_le_add_left hgy _
        have hfin : st.gScore x < ⊤ := lt_of_le_of_lt hgx (WithTop.coe_lt_top _)
        by_cases hopen : x ∈ st.openSet
        · right
          have h1 := hbest x hopen
          rw [hinv.fEq x hfin] at h1
          refine le_trans h1 ?_
          rw [WithTop.coe_add]
          exact add_le_add_right hgx _
        · exact Or.inl ⟨⟨hfin, hopen⟩, hgx⟩
    · right
      refine le_trans hb ?_
      rw [WithTop.coe_le_coe, hlen]
      have htri := edgeLength_triangle M graph hsub y x goal hky hkx hgoal
      calc revLength M graph (y :: rest) + edgeLength M graph y goal
          ≤ revLength M graph (y :: rest) +
              (edgeLength M graph y x + edgeLength M graph x goal) :=
            add_le_add_left htri _
        _ = edgeLength M graph y x + revLength M graph (y :: rest) +
              edgeLength M graph x goal := by abel

/-- The node picked for expansion has the least possible `gScore`. -/
theorem picked_optimal (M : JSMath R) (graph : Graph R) (start goal : String)
    (hsub : ∀ a b c d, M.hypot (a + b) (c + d) ≤ M.hypot a c + M.hypot b d)
    (hwf : neighborsKnown graph = true) (hgoal : (getNode graph goal).isSome = true)
    (st : SearchState R) (c0 : String) (hinv : SearchInv M graph start goal st c0 [])
    (cur : String) (hcur : cur ∈ st.openSet)
    (hbest : ∀ w ∈ st.openSet, st.fScore cur ≤ st.fScore w) :
    ∀ rw, RevWalk graph start (cur :: rw) →
      st.gScore cur ≤ ((revLength M graph (cur :: rw) : R) : WithTop R) := by
  intro rw hrw
  have hfin := hinv.openFin cur hcur
  rcases walk_bound M graph start goal hsub hwf hgoal st c0 hinv (st.fScore cur) hbest
      rw cur hrw with h | h
  · exact absurd hcur h.1.2
  · obtain ⟨gc, hgc⟩ := fin_of_lt_top _ hfin
    rw [hinv.fEq cur hfin, hgc, ← WithTop.coe_add, WithTop.coe_le_coe] at h
    rw [hgc, WithTop.coe_le_coe]
    exact le_of_add_le_add_right h

/-- Taking the picked node out of the open set closes it and keeps the
invariant, with its whole neighbor list pending. -/
theorem select_inv (M : JSMath R) (graph : Graph R) (start goal : String)
    (hsub : ∀ a b c d, M.hypot (a + b) (c + d) ≤ M.hypot a c + M.hypot b d)
    (hwf : neighborsKnown graph = true) (hgoal : (getNode graph goal).isSome = true)
    (st : SearchState R) (c0 : String) (hinv : SearchInv M graph start goal st c0 [])
    (cur : String) (hcur : cur ∈ st.openSet)
    (hbest : ∀ w ∈ st.openSet, st.fScore cur ≤ st.fScore w)
    (hne : cur ≠ goal) (pend : List String)
    (hpend : ∀ v, isEdge graph cur v = true → v ∈ pend) :
    SearchInv M graph start goal { st with openSet := st.openSet.erase cur } cur pend ∧
    (∀ w, closedAt ({ st with openSet := st.openSet.erase cur } : SearchState R) w ↔
      closedAt st w ∨ w = cur) := by
  have hiff : ∀ w, closedAt ({ st with openSet := st.openSet.erase cur } : SearchState R) w ↔
      closedAt st w ∨ w = cur := by
    intro w
    unfold closedAt
    simp only
    by_cases hw : w = cur
    · subst hw
      constructor
      · intro _; exact Or.inr rfl
      · intro _
        exact ⟨hinv.openFin w hcur, fun h => (List.Nodup.not_mem_erase hinv.nodup) h⟩
    · rw [List.mem_erase_of_ne hw]
      simp [hw]
  refine ⟨?_, hiff⟩
  constructor
  · exact List.Nodup.erase _ hinv.nodup
  · exact hinv.known
  · intro v hv
    exact hinv.openFin v (List.mem_of_mem_erase hv)
  · exact hinv.gStart
  · exact hinv.cfStart
  · exact hinv.fEq
  · intro hg
    exact (List.mem_erase_of_ne (Ne.symm hne)).mpr (hinv.goalOpen hg)
  · intro v hv
    obtain ⟨p, hc, hcl, hnd, hwalk, hlen⟩ := hinv.chain v hv
    exact ⟨p, hc, fun u hu => (hiff u).mpr (Or.inl (hcl u hu)), hnd, hwalk, hlen⟩
  · intro u hu rw hrw
    rcases (hiff u).mp hu with h | h
    · exact hinv.opt u h rw hrw
    · subst h
      exact picked_optimal M graph start goal hsub hwf hgoal st c0 hinv u hcur hbest rw hrw
  · intro u hu v hedge
    rcases (hiff u).mp hu with h | h
    · rcases hinv.relaxed u h v hedge with h2 | h2
      · exact absurd h2.2 (List.not_mem_nil _)
      · exact Or.inr h2
    · subst h
      exact Or.inl ⟨rfl, hpend v hedge⟩

/-- With an empty open set every node on a walk from the start is closed. -/
theorem all_closed_of_empty (M : JSMath R) (graph : Graph R) (start goal : String)
    (st : SearchState R) (c0 : String) (hinv : SearchInv M graph start goal st c0 [])
    (hempty : st.openSet = []) :
    ∀ (l : List String) (x : String), RevWalk graph start (x :: l) → closedAt st x := by
  intro l
  induction l with
  | nil =>
    intro x hx
    simp only [RevWalk] at hx
    subst hx
    refine ⟨?_, by rw [hempty]; exact List.not_mem_nil _⟩
    rw [hinv.gStart]; exact WithTop.coe_lt_top _
  | cons y rest ih =>
    intro x hx
    simp only [RevWalk] at hx
    have hcy := ih y hx.2
    rcases hinv.relaxed y hcy x hx.1 with h | h
    · exact absurd h.2 (List.not_mem_nil _)
    · obtain ⟨gy, hgy⟩ := fin_of_lt_top _ hcy.1
      refine ⟨?_, by rw [hempty]; exact List.not_mem_nil _⟩
      refine lt_of_le_of_lt h ?_
      rw [hgy, ← WithTop.coe_add]
      exact WithTop.coe_lt_top _

end ExpandFacts

theorem length_le_of_known {R : Type} (graph : Graph R) (l : List String) (hnd : l.Nodup)
    (hk : ∀ u ∈ l, (getNode graph u).isSome = true) : l.length ≤ graph.length := by
  have hsub : l ⊆ graph.map Prod.fst := by
    intro u hu
    exact (getNode_isSome_iff_mem_keys graph u).mp (hk u hu)
  have := (List.subperm_of_subset hnd hsub).length_le
  simpa using this

section LoopFacts

variable {R : Type} [LinearOrderedAddCommGroup R]

/-- The loop of `aStar` returns, within a number of rounds bounded by the size
of the graph, a result described by `SearchPost`. -/
theorem aStarLoop_correct (M : JSMath R) (graph : Graph R) (start goal : String)
    (hnn : ∀ a b, 0 ≤ M.hypot a b)
    (hsub : ∀ a b c d, M.hypot (a + b) (c + d) ≤ M.hypot a c + M.hypot b d)
    (hwf : neighborsKnown graph = true) (hgoal : (getNode graph goal).isSome = true)
    (rfuel : Nat) (hrfuel : graph.length < rfuel) :
    ∀ (fuel : Nat) (st : SearchState R) (closed : List String) (c0 : String),
      SearchInv M graph start goal st c0 [] → closed.Nodup →
      (∀ w, w ∈ closed ↔ closedAt st w) → graph.length < fuel + closed.length →
      ∃ r, aStarLoop M graph goal rfuel fuel st = .ok r ∧ SearchPost M graph start goal r := by
  intro fuel
  induction fuel with
  | zero =>
    intro st closed c0 hinv hnd hcl hlen
    have := length_le_of_known graph closed hnd
      (fun u hu => hinv.known u ((hcl u).mp hu).1)
    omega
  | succ n ih =>
    intro st closed c0 hinv hnd hcl hlen
    cases hopen : st.openSet with
    | nil =>
      refine ⟨none, by simp [aStarLoop, hopen], ?_⟩
      intro rw hrw
      have hc := all_closed_of_empty M graph start goal st c0 hinv hopen rw goal hrw
      have := hinv.goalOpen hc.1
      exact hc.2 this
    | cons a rest =>
      obtain ⟨hmem, hbest⟩ := pickCurrent_spec st.fScore rest a
      rw [← hopen] at hmem hbest
      generalize hpc : pickCurrent st.fScore a rest = cur at hmem hbest
      by_cases hcg : cur = goal
      · rw [hcg] at hmem hbest
        have hfin := hinv.openFin goal hmem
        obtain ⟨rc, hchain, hclosedrc, hndrc, hwalk, hlenrc⟩ := hinv.chain goal hfin
        have hknown : ∀ u ∈ rc, (getNode graph u).isSome = true :=
          fun u hu => hinv.known u (hclosedrc u hu).1
        have hbound := length_le_of_known graph (goal :: rc) hndrc (by
          intro u hu
          rcases List.mem_cons.mp hu with h | h
          · rw [h]; exact hgoal
          · exact hknown u h)
        simp only [List.length_cons] at hbound
        obtain ⟨k, _, hres, hend⟩ := reconstructLoop_chain st.cameFrom start hinv.cfStart
          rc goal [goal] rfuel hchain (by omega)
        refine ⟨some ((rc.take k).reverse ++ [goal]), ?_, rc, k, hwalk, hknown, rfl, hend, ?_⟩
        · simp [aStarLoop, hopen, hpc, hcg, reconstructPath, hres]
        · intro rw hrw
          have := picked_optimal M graph start goal hsub hwf hgoal st c0 hinv goal hmem
            hbest rw hrw
          rw [hlenrc, WithTop.coe_le_coe] at this
          exact this
      · have hfin := hinv.openFin _ hmem
        obtain ⟨node, hnode⟩ := Option.isSome_iff_exists.mp (hinv.known _ hfin)
        obtain ⟨hinv1, hiff1⟩ := select_inv M graph start goal hsub hwf hgoal st c0 hinv
          cur hmem hbest hcg node.neighbors (by
            intro v hv
            obtain ⟨n2, hn2, hv2⟩ := (isEdge_iff graph _ v).mp hv
            rw [hnode] at hn2
            cases hn2
            exact hv2)
        have hcur1 := (hiff1 cur).mpr (Or.inr rfl)
        obtain ⟨st2, hr2, hinv2, hiff2⟩ := relaxAll_inv M graph start goal hnn hwf hgoal
          cur node.neighbors _ hinv1 hcur1 (by
            intro v hv
            exact (isEdge_iff graph _ v).mpr ⟨node, hnode, hv⟩)
        have hnotin : cur ∉ closed := by
          intro h
          exact ((hcl _).mp h).2 hmem
        obtain ⟨r, hr, hpost⟩ := ih st2 (cur :: closed) cur hinv2
          (List.nodup_cons.mpr ⟨hnotin, hnd⟩) (by
            intro w
            rw [hiff2 w, hiff1 w, List.mem_cons, hcl w]
            tauto) (by simp only [List.length_cons]; omega)
        refine ⟨r, ?_, hpost⟩
        rw [← hr]
        rw [hopen] at hr2
        simp [aStarLoop, hopen, hpc, hcg, hnode, hr2]

/-- Under exact arithmetic with a non-negative, subadditive `hypot`,
`aStar` returns whenever it is given more fuel than the graph has entries,
and what it returns is described by `SearchPost`. -/
theorem aStar_correct (M : JSMath R) (graph : Graph R) (start goal : String)
    (hnn : ∀ a b, 0 ≤ M.hypot a b)
    (hsub : ∀ a b c d, M.hypot (a + b) (c + d) ≤ M.hypot a c + M.hypot b d)
    (hwf : neighborsKnown graph = true)
    (hstart : (getNode graph start).isSome = true)
    (hgoal : (getNode graph goal).isSome = true)
    (fuel : Nat) (hfuel : graph.length < fuel) :
    ∃ r, aStar M graph fuel start goal = .ok r ∧ SearchPost M graph start goal r := by
  obtain ⟨r, hr, hpost⟩ := aStarLoop_correct M graph start goal hnn hsub hwf hgoal fuel hfuel
    fuel _ [] start (searchInv_init M graph start goal start hstart) List.nodup_nil (by
      intro w
      constructor
      · intro h; exact absurd h (List.not_mem_nil _)
      · intro h
        exfalso
        have h1 : w = start := by
          by_contra hne
          have := h.1
          simp only [Function.update_noteq hne] at this
          exact lt_irrefl _ this
        subst h1
        exact h.2 (List.mem_singleton_self _)) (by simpa using hfuel)
  refine ⟨r, ?_, hpost⟩
  rw [← hr]
  simp [aStar, heuristic_known M graph start goal hstart hgoal]

end LoopFacts

theorem followsEdges_known {R : Type} (graph : Graph R) (hwf : neighborsKnown graph = true) :
    ∀ (p : List String) (a : String), (getNode graph a).isSome = true →
      followsEdges graph (a :: p) = true → ∀ u ∈ a :: p, (getNode graph u).isSome = true := by
  intro p
  induction p with
  | nil =>
    intro a ha _ u hu
    rw [List.mem_singleton] at hu
    rw [hu]; exact ha
  | cons b rest ih =>
    intro a ha hf u hu
    simp only [followsEdges, Bool.and_eq_true] at hf
    rcases List.mem_cons.mp hu with h | h
    · rw [h]; exact ha
    · exact ih b (isEdge_known graph hwf a b hf.1).2 hf.2 u h

section PostFacts

variable {R : Type} [LinearOrderedAddCommGroup R]

/-- What a returned path is, under exact arithmetic: no longer than any route
from the start to the goal, and itself such a route unless the empty string
is a key of the graph. -/
theorem searchPost_some (M : JSMath R) (graph : Graph R) (start goal : String)
    (hnn : ∀ a b, 0 ≤ M.hypot a b) (p : List String)
    (hpost : SearchPost M graph start goal (some p)) :
    (∀ q, isRoute graph start goal q = true → pathLength M graph p ≤ pathLength M graph q) ∧
    (getNode graph "" = none → isRoute graph start goal p = true) := by
  obtain ⟨rc, k, hwalk, hknown, hp, hend, hopt⟩ := hpost
  have hp1 : p = ((goal :: rc).take (k + 1)).reverse := by
    rw [hp]; simp
  constructor
  · intro q hq
    obtain ⟨rw, hrw, hrwalk⟩ := revWalk_of_route graph start goal q hq
    have h1 : pathLength M graph p = revLength M graph ((goal :: rc).take (k + 1)) := by
      rw [hp1, pathLength_reverse]
    have h2 : pathLength M graph q = revLength M graph (goal :: rw) := by
      rw [← hrw, ← pathLength_reverse, List.reverse_reverse]
    rw [h1, h2]
    exact le_trans (revLength_take_le M graph hnn _ _) (hopt rw hrwalk)
  · intro hne
    have hk : k = rc.length := by
      rcases hend with h | h
      · exact h
      · have hmem : "" ∈ rc := List.getElem?_mem h
        have := hknown "" hmem
        rw [hne] at this
        simp at this
    have hp2 : p = (goal :: rc).reverse := by
      rw [hp, hk]; simp
    obtain ⟨hf, hh⟩ := revWalk_reverse graph start (goal :: rc) hwalk
    unfold isRoute
    rw [hp2, hf]
    simp only [Bool.and_true, Bool.and_eq_true, decide_eq_true_eq]
    exact ⟨hh, by simp⟩

theorem searchPost_none (M : JSMath R) (graph : Graph R) (start goal : String)
    (hpost : SearchPost M graph start goal none) :
    ∀ q, isRoute graph start goal q = false := by
  intro q
  by_contra h
  have hq : isRoute graph start goal q = true := by
    cases hb : isRoute graph start goal q with
    | true => rfl
    | false => exact absurd hb h
  obtain ⟨rw, _, hrwalk⟩ := revWalk_of_route graph start goal q hq
  exact hpost rw hrwalk

/-- Under exact arithmetic with a non-negative, subadditive `hypot`: for a
goal reachable from the start `aStar` returns a path no longer than any route,
itself a route unless the empty string is a key of the graph. -/
theorem aStar_reachable (M : JSMath R) (graph : Graph R) (start goal : String)
    (hnn : ∀ a b, 0 ≤ M.hypot a b)
    (hsub : ∀ a b c d, M.hypot (a + b) (c + d) ≤ M.hypot a c + M.hypot b d)
    (hwf : neighborsKnown graph = true)
    (hstart : (getNode graph start).isSome = true)
    (hgoal : (getNode graph goal).isSome = true)
    (hreach : ∃ q, isRoute graph start goal q = true)
    (fuel : Nat) (hfuel : graph.length < fuel) :
    ∃ path, aStar M graph fuel start goal = .ok (some path) ∧
      (∀ q, isRoute graph start goal q = true →
        pathLength M graph path ≤ pathLength M graph q) ∧
      (getNode graph "" = none → isRoute graph start goal path = true) := by
  obtain ⟨r, hr, hpost⟩ := aStar_correct M graph start goal hnn hsub hwf hstart hgoal fuel hfuel
  cases r with
  | none =>
    obtain ⟨q, hq⟩ := hreach
    have := searchPost_none M graph start goal hpost q
    rw [hq] at this
    exact absurd this (by simp)
  | some p =>
    exact ⟨p, hr, searchPost_some M graph start goal hnn p hpost⟩

/-- Under exact arithmetic with a non-negative, subadditive `hypot`: for a
goal that no route reaches `aStar` returns `null`. -/
theorem aStar_no_route (M : JSMath R) (graph : Graph R) (start goal : String)
    (hnn : ∀ a b, 0 ≤ M.hypot a b)
    (hsub : ∀ a b c d, M.hypot (a + b) (c + d) ≤ M.hypot a c + M.hypot b d)
    (hwf : neighborsKnown graph = true)
    (hstart : (getNode graph start).isSome = true)
    (hgoal : (getNode graph goal).isSome = true)
    (hunreach : ∀ q, isRoute graph start goal q = false)
    (fuel : Nat) (hfuel : graph.length < fuel) :
    aStar M graph fuel start goal = .ok none := by
  obtain ⟨r, hr, hpost⟩ := aStar_correct M graph start goal hnn hsub hwf hstart hgoal fuel hfuel
  cases r with
  | none => exact hr
  | some p =>
    exfalso
    obtain ⟨rc, k, hwalk, _, _, _, _⟩ := hpost
    obtain ⟨hf, hh⟩ := revWalk_reverse graph start (goal :: rc) hwalk
    have hroute : isRoute graph start goal (goal :: rc).reverse = true := by
      unfold isRoute
      rw [hf]
      simp only [Bool.and_true, Bool.and_eq_true, decide_eq_true_eq]
      exact ⟨hh, by simp⟩
    rw [hunreach] at hroute
    exact absurd hroute (by simp)

end PostFacts

section EuclidFacts

theorem sqrt_subadd (a b c d : ℝ) :
    Real.sqrt ((a + b) * (a + b) + (c + d) * (c + d)) ≤
      Real.sqrt (a * a + c * c) + Real.sqrt (b * b + d * d) := by
  have h := Complex.abs.add_le ⟨a, c⟩ ⟨b, d⟩
  simpa [Complex.abs_apply, Complex.normSq_apply] using h

/-- The Euclidean norm is non-negative and subadditive. -/
theorem hypot_euclid_laws (M : JSMath ℝ)
    (hM : ∀ a b, M.hypot a b = Real.sqrt (a * a + b * b)) :
    (∀ a b, 0 ≤ M.hypot a b) ∧
    (∀ a b c d, M.hypot (a + b) (c + d) ≤ M.hypot a c + M.hypot b d) :=
  ⟨fun a b => by rw [hM]; exact Real.sqrt_nonneg _,
    fun a b c d => by simp only [hM]; exact sqrt_subadd a b c d⟩

/-- The search in exact arithmetic: over the reals with `Math.hypot` the
Euclidean norm, on a graph whose listed neighbors are all keys and for a goal
reachable from the start, `aStar` returns a list (with any fuel above the
number of entries) whose length is at most that of every route from the start
to the goal; when the empty string is not a key of the graph the list is
itself such a route, hence a shortest one. -/
theorem aStar_shortest (M : JSMath ℝ)
    (hM : ∀ a b, M.hypot a b = Real.sqrt (a * a + b * b))
    (graph : Graph ℝ) (start goal : String)
    (hwf : neighborsKnown graph = true)
    (hstart : (getNode graph start).isSome = true)
    (hgoal : (getNode graph goal).isSome = true)
    (hreach : ∃ q, isRoute graph start goal q = true)
    (fuel : Nat) (hfuel : graph.length < fuel) :
    ∃ path, aStar M graph fuel start goal = .ok (some path) ∧
      (∀ q, isRoute graph start goal q = true →
        pathLength M graph path ≤ pathLength M graph q) ∧
      (getNode graph "" = none → isRoute graph start goal path = true) := by
  obtain ⟨hnn, hsub⟩ := hypot_euclid_laws M hM
  obtain ⟨r, hr, hpost⟩ := aStar_correct M graph start goal hnn hsub hwf hstart hgoal fuel hfuel
  cases r with
  | none =>
    obtain ⟨q, hq⟩ := hreach
    have hno := searchPost_none M graph start goal hpost q
    rw [hq] at hno
    exact absurd hno (by simp)
  | some p =>
    exact ⟨p, hr, searchPost_some M graph start goal hnn p hpost⟩

/-- C2: over the reals with `Math.hypot` the Euclidean norm, on a graph whose
listed neighbors are all keys and for a goal that no route from the start
reaches, `aStar` returns `null` (with any fuel above the number of entries). -/
theorem aStar_unreachable (M : JSMath ℝ)
    (hM : ∀ a b, M.hypot a b = Real.sqrt (a * a + b * b))
    (graph : Graph ℝ) (start goal : String)
    (hwf : neighborsKnown graph = true)
    (hstart : (getNode graph start).isSome = true)
    (hgoal : (getNode graph goal).isSome = true)
    (hunreach : ∀ q, isRoute graph start goal q = false)
    (fuel : Nat) (hfuel : graph.length < fuel) :
    aStar M graph fuel start goal = .ok none := by
  obtain ⟨hnn, hsub⟩ := hypot_euclid_laws M hM
  obtain ⟨r, hr, hpost⟩ := aStar_correct M graph start goal hnn hsub hwf hstart hgoal fuel hfuel
  cases r with
  | none => exact hr
  | some p =>
    exfalso
    obtain ⟨rc, k, hwalk, _, _, _, _⟩ := hpost
    obtain ⟨hf, hh⟩ := revWalk_reverse graph start (goal :: rc) hwalk
    have hroute : isRoute graph start goal (goal :: rc).reverse = true := by
      unfold isRoute
      rw [hf]
      simp only [Bool.and_true, Bool.and_eq_true, decide_eq_true_eq]
      exact ⟨hh, by simp⟩
    rw [hunreach] at hroute
    exact absurd hroute (by simp)

end EuclidFacts

section RouteFacts

variable {R : Type}

/-- A goal other than the start that no node lists as a neighbor is unreachable. -/
theorem no_route_of_no_incoming (graph : Graph R) (start goal : String)
    (hne : start ≠ goal)
    (hin : graph.all (fun entry => !decide (goal ∈ entry.2.neighbors)) = true) :
    ∀ q, isRoute graph start goal q = false := by
  intro q
  by_contra h
  have hq : isRoute graph start goal q = true := by
    cases hb : isRoute graph start goal q with
    | true => rfl
    | false => exact absurd hb h
  obtain ⟨rw, _, hrwalk⟩ := revWalk_of_route graph start goal q hq
  cases rw with
  | nil =>
    simp only [RevWalk] at hrwalk
    exact hne hrwalk.symm
  | cons y rest =>
    simp only [RevWalk] at hrwalk
    obtain ⟨n, hn, hmem⟩ := (isEdge_iff graph y goal).mp hrwalk.1
    rw [List.all_eq_true] at hin
    have := hin (y, n) (getNode_mem graph y n hn)
    simp [hmem] at this

end RouteFacts

theorem aStar_shortest_witness :
    (∀ a b, (⟨fun a b => Real.sqrt (a * a + b * b), fun _ _ => 0, fun a => |a|,
        Real.pi⟩ : JSMath ℝ).hypot a b = Real.sqrt (a * a + b * b)) ∧
    neighborsKnown sampleGraphReal = true ∧
    (getNode sampleGraphReal "GATE").isSome = true ∧
    (getNode sampleGraphReal "B").isSome = true ∧
    (∃ q, isRoute sampleGraphReal "GATE" "B" q = true) ∧
    sampleGraphReal.length < 4 ∧
    ∃ path, aStar (⟨fun a b => Real.sqrt (a * a + b * b), fun _ _ => 0, fun a => |a|,
        Real.pi⟩ : JSMath ℝ) sampleGraphReal 4 "GATE" "B" = .ok (some path) ∧
      (∀ q, isRoute sampleGraphReal "GATE" "B" q = true →
        pathLength (⟨fun a b => Real.sqrt (a * a + b * b), fun _ _ => 0, fun a => |a|,
          Real.pi⟩ : JSMath ℝ) sampleGraphReal path ≤
        pathLength (⟨fun a b => Real.sqrt (a * a + b * b), fun _ _ => 0, fun a => |a|,
          Real.pi⟩ : JSMath ℝ) sampleGraphReal q) ∧
      (getNode sampleGraphReal "" = none → isRoute sampleGraphReal "GATE" "B" path = true) :=
  ⟨fun _ _ => rfl, by decide, by decide, by decide, ⟨["GATE", "A", "B"], by decide⟩,
    by decide,
    aStar_shortest _ (fun _ _ => rfl) sampleGraphReal "GATE" "B" (by decide) (by decide)
      (by decide) ⟨["GATE", "A", "B"], by decide⟩ 4 (by decide)⟩

theorem aStar_unreachable_witness :
    (∀ a b, (⟨fun a b => Real.sqrt (a * a + b * b), fun _ _ => 0, fun a => |a|,
        Real.pi⟩ : JSMath ℝ).hypot a b = Real.sqrt (a * a + b * b)) ∧
    neighborsKnown islandGraphReal = true ∧
    (getNode islandGraphReal "GATE").isSome = true ∧
    (getNode islandGraphReal "C").isSome = true ∧
    (∀ q, isRoute islandGraphReal "GATE" "C" q = false) ∧
    islandGraphReal.length < 5 ∧
    aStar (⟨fun a b => Real.sqrt (a * a + b * b), fun _ _ => 0, fun a => |a|,
        Real.pi⟩ : JSMath ℝ) islandGraphReal 5 "GATE" "C" = .ok none :=
  ⟨fun _ _ => rfl, by decide, by decide, by decide,
    no_route_of_no_incoming islandGraphReal "GATE" "C" (by decide) (by decide),
    by decide,
    aStar_unreachable _ (fun _ _ => rfl) islandGraphReal "GATE" "C" (by decide) (by decide)
      (by decide) (no_route_of_no_incoming islandGraphReal "GATE" "C" (by decide) (by decide))
      5 (by decide)⟩

/-! ## The empty string as a node id -/

section EmptyId

variable {R : Type} [Zero R] [Add R] [Sub R] [LT R] [@DecidableRel R (· < ·)]

/-- On the two-node map with the empty id, the search from "" to B returns
`["B"]`: the loop of `reconstructPath` tests `cameFrom["B"]`, which is `""`. -/
theorem emptyId_search_result (M : JSMath R) (x0 y0 x1 y1 : R) (fuel : Nat) :
    aStar M (emptyIdMap x0 y0 x1 y1) (fuel + 2) "" "B" = .ok (some ["B"]) := by
  have hne : ("B" : String) ≠ "" := by decide
  have hne2 : ("" : String) ≠ "B" := by decide
  have hlt : (0 : WithTop R) + ((M.hypot (x1 - x0) (y1 - y0) : R) : WithTop R) < ⊤ := by
    rw [← WithTop.coe_zero, ← WithTop.coe_add]
    exact WithTop.coe_lt_top _
  simp [aStar, emptyIdMap, heuristic, getNode, List.lookup, aStarLoop, pickCurrent, relaxAll,
    relax, hne, hne2, hlt, setAdd, reconstructPath, reconstructLoop]

/-- C3 fails on the code: on a graph whose listed neighbors are all keys and
whose start node has the empty string as its id, `aStar("", "B")` returns
`["B"]`, whose first element is not the start node, although `["", "B"]` is a
route; this holds whatever the positions and the arithmetic.  The loop of
`reconstructPath` tests `cameFrom["B"]`, which is `""` and therefore falsy. -/
theorem aStar_emptyId_truncated (M : JSMath R) (x0 y0 x1 y1 : R) (fuel : Nat) :
    aStar M (emptyIdMap x0 y0 x1 y1) (fuel + 2) "" "B" = .ok (some ["B"]) ∧
    neighborsKnown (emptyIdMap x0 y0 x1 y1) = true ∧
    isRoute (emptyIdMap x0 y0 x1 y1) "" "B" ["", "B"] = true ∧
    (["B"] : List String).head? ≠ some "" :=
  ⟨emptyId_search_result M x0 y0 x1 y1 fuel, rfl, rfl, by decide⟩

/-- C1 fails on the code: on the two-node map whose first node has the empty
string as its id, every listed neighbor is a key, start "" and goal B are
keys and `["", "B"]` is a sequence from start to goal along neighbor lists,
yet `aStar("", "B")` returns `["B"]`, which does not start at the start node:
the list returned is not a start-to-goal sequence at all, so it is not a
shortest one.  This holds whatever the positions and the arithmetic. -/
theorem aStar_emptyId_not_a_route (M : JSMath R) (x0 y0 x1 y1 : R) (fuel : Nat) :
    neighborsKnown (emptyIdMap x0 y0 x1 y1) = true ∧
    (getNode (emptyIdMap x0 y0 x1 y1) "").isSome = true ∧
    (getNode (emptyIdMap x0 y0 x1 y1) "B").isSome = true ∧
    isRoute (emptyIdMap x0 y0 x1 y1) "" "B" ["", "B"] = true ∧
    aStar M (emptyIdMap x0 y0 x1 y1) (fuel + 2) "" "B" = .ok (some ["B"]) ∧
    isRoute (emptyIdMap x0 y0 x1 y1) "" "B" ["B"] = false :=
  ⟨rfl, rfl, rfl, rfl, emptyId_search_result M x0 y0 x1 y1 fuel, rfl⟩

end EmptyId

section EmptyIdSession

variable {R : Type} [Zero R] [Add R] [Sub R] [Mul R] [Div R] [NatCast R]
  [LT R] [@DecidableRel R (· < ·)]

/-- C6 fails on the code: standing at the node whose id is the empty string,
`navigateTo("B")` to the reachable, different node B throws a `TypeError`
instead of returning step 0, whatever the positions and the arithmetic: the
path handed to `extractDirections` is the truncated `["B"]`. -/
theorem navigateTo_emptyId_throws (M : JSMath R) (x0 y0 x1 y1 : R) (fuel : Nat)
    (userHeading : Vec R) (s : Session) (hs : s.startNode = "") :
    navigateTo M (emptyIdMap x0 y0 x1 y1) (fuel + 2) userHeading s "B" =
      ({ s with activeDirections := [], currentStepIndex := 0 }, .throw .typeError) := by
  have ha := emptyId_search_result M x0 y0 x1 y1 fuel
  have hg : getNode (emptyIdMap x0 y0 x1 y1) "B" = some ⟨x1, y1, [""]⟩ := by
    simp [getNode, emptyIdMap, List.lookup]
  simp [navigateTo, hg, hs, ha, extractDirections, extractLoop]

end EmptyIdSession

theorem navigateTo_emptyId_throws_witness :
    emptyIdSession.startNode = "" ∧
    navigateTo taxicabMath (emptyIdMap 0 0 1 0) (8 + 2) initialHeading emptyIdSession "B" =
      ({ emptyIdSession with activeDirections := [], currentStepIndex := 0 },
        .throw .typeError) :=
  ⟨rfl, navigateTo_emptyId_throws taxicabMath 0 0 1 0 8 initialHeading emptyIdSession rfl⟩

/-! ## Route session -/

theorem advanceStep_index (s : Session) :
    (advanceStep s).1.currentStepIndex = s.currentStepIndex + 1 := by
  by_cases h : s.activeDirections.length ≤ s.currentStepIndex + 1 <;> simp [advanceStep, h]

theorem advanceStep_startNode (s : Session) :
    (advanceStep s).1.startNode = s.startNode := by
  by_cases h : s.activeDirections.length ≤ s.currentStepIndex + 1 <;> simp [advanceStep, h]

theorem advanceStep_activeDirections (s : Session) :
    (advanceStep s).1.activeDirections = s.activeDirections := by
  by_cases h : s.activeDirections.length ≤ s.currentStepIndex + 1 <;> simp [advanceStep, h]

theorem advanceStep_routeKnown {R : Type} (graph : Graph R) (s : Session)
    (hs : RouteKnown graph s) : RouteKnown graph (advanceStep s).1 := by
  unfold advanceStep
  by_cases h : s.activeDirections.length ≤ s.currentStepIndex + 1
  · simp only [h, dite_true]
    exact hs
  · simp only [h, dite_false]
    refine ⟨?_, hs.2⟩
    intro t ht
    simp only [Option.some.injEq] at ht
    subst ht
    exact hs.2 _ (List.get_mem _ _ _)

theorem setStartNode_routeKnown {R : Type} (graph : Graph R) (s : Session) (n : String)
    (hs : RouteKnown graph s) : RouteKnown graph (setStartNode graph s n) := by
  unfold setStartNode
  cases getNode graph n with
  | none => exact hs
  | some _ => exact hs

theorem onNodeReached_routeKnown {R : Type} (graph : Graph R) (s : Session) (n : String)
    (hs : RouteKnown graph s) : RouteKnown graph (onNodeReached graph s n).1 := by
  unfold onNodeReached
  by_cases h : s.currentTargetNode ≠ some n
  · rw [if_pos h]
    exact hs
  · rw [if_neg h]
    exact advanceStep_routeKnown graph _ (setStartNode_routeKnown graph s n hs)

section SearchFacts

variable {R : Type} [Zero R] [Add R] [Sub R] [LT R] [@DecidableRel R (· < ·)]

/-- `aStar(start, start)` on a start node of the graph returns `[start]`. -/
theorem aStar_self (M : JSMath R) (graph : Graph R) (fuel : Nat) (start : String)
    (hstart : (getNode graph start).isSome = true) :
    aStar M graph (fuel + 1) start start = .ok (some [start]) := by
  obtain ⟨n, hn⟩ := Option.isSome_iff_exists.mp hstart
  simp [aStar, heuristic, hn, aStarLoop, pickCurrent, reconstructPath, reconstructLoop]

end SearchFacts

section RouteSessionFacts

variable {R : Type} [Zero R] [Add R] [Sub R] [Mul R] [Div R] [NatCast R]
  [LT R] [@DecidableRel R (· < ·)]

/-- Every step produced by the extraction loop ends at a key of the graph:
the loop dereferences `graph[to]` before it pushes the step. -/
theorem extractLoop_to_known (M : JSMath R) (graph : Graph R) :
    ∀ (path : List String) (i : Nat) (heading : Vec R) (steps : List Step),
      extractLoop M graph i heading path = .ok steps →
      ∀ st ∈ steps, (getNode graph st.to_).isSome = true := by
  intro path
  induction path with
  | nil =>
    intro i heading steps h st hst
    simp [extractLoop] at h
    subst h
    simp at hst
  | cons a tl ih =>
    intro i heading steps h st hst
    cases tl with
    | nil =>
      simp [extractLoop] at h
      subst h
      simp at hst
    | cons b rest =>
      rw [extractLoop] at h
      cases hb : getNode graph b with
      | none => simp [hb] at h
      | some nb =>
        cases ha : getNode graph a with
        | none => simp [hb, ha] at h
        | some na =>
          simp only [hb, ha] at h
          cases hrec : extractLoop M graph (i + 1)
              (normalize M { x := nb.x - na.x, y := nb.y - na.y }) (b :: rest) with
          | error e => simp [hrec] at h
          | ok more =>
            simp only [hrec, Except.ok.injEq] at h
            subst h
            rcases List.mem_cons.mp hst with h1 | h1
            · subst h1
              simp [hb]
            · exact ih _ _ _ hrec st h1

/-- The four ways a call of `navigateTo` can end, with the session each leaves. -/
theorem navigateTo_cases (M : JSMath R) (graph : Graph R) (fuel : Nat)
    (userHeading : Vec R) (s : Session) (d : String) :
    navigateTo M graph fuel userHeading s d = (s, .ret none) ∨
    (∃ e, navigateTo M graph fuel userHeading s d = (s, .throw e)) ∨
    (∃ path, aStar M graph fuel s.startNode d = .ok (some path) ∧
      extractDirections M graph userHeading path = .ok [] ∧
      navigateTo M graph fuel userHeading s d =
        ({ s with activeDirections := [], currentStepIndex := 0 }, .throw .typeError)) ∨
    (∃ path first more, aStar M graph fuel s.startNode d = .ok (some path) ∧
      extractDirections M graph userHeading path = .ok (first :: more) ∧
      navigateTo M graph fuel userHeading s d =
        ({ activeDirections := first :: more, currentStepIndex := 0,
           currentTargetNode := some first.to_, startNode := s.startNode },
          .ret (some first))) := by
  cases hd : getNode graph d with
  | none => exact Or.inl (by simp [navigateTo, hd])
  | some nd =>
    cases ha : aStar M graph fuel s.startNode d with
    | error e => exact Or.inr (Or.inl ⟨e, by simp [navigateTo, hd, ha]⟩)
    | ok r =>
      cases r with
      | none => exact Or.inl (by simp [navigateTo, hd, ha])
      | some path =>
        cases he : extractDirections M graph userHeading path with
        | error e => exact Or.inr (Or.inl ⟨e, by simp [navigateTo, hd, ha, he]⟩)
        | ok steps =>
          cases steps with
          | nil =>
            exact Or.inr (Or.inr (Or.inl ⟨path, rfl, he, by simp [navigateTo, hd, ha, he]⟩))
          | cons first more =>
            exact Or.inr (Or.inr (Or.inr ⟨path, first, more, rfl, he,
              by simp [navigateTo, hd, ha, he]⟩))

theorem navigateTo_routeKnown (M : JSMath R) (graph : Graph R) (fuel : Nat)
    (userHeading : Vec R) (s : Session) (d : String)
    (hs : RouteKnown graph s ∨
      ∃ first, (navigateTo M graph fuel userHeading s d).2 = .ret (some first)) :
    RouteKnown graph (navigateTo M graph fuel userHeading s d).1 := by
  rcases navigateTo_cases M graph fuel userHeading s d with h | ⟨e, h⟩ |
    ⟨path, _, _, h⟩ | ⟨path, first, more, _, he, h⟩
  · rw [h] at hs ⊢
    rcases hs with hs | ⟨first, hf⟩
    · exact hs
    · simp at hf
  · rw [h] at hs ⊢
    rcases hs with hs | ⟨first, hf⟩
    · exact hs
    · simp at hf
  · rw [h] at hs ⊢
    rcases hs with hs | ⟨first, hf⟩
    · exact ⟨hs.1, by simp⟩
    · simp at hf
  · rw [h]
    have hk := extractLoop_to_known M graph path 1 userHeading _ he
    refine ⟨?_, hk⟩
    intro t ht
    simp only [Option.some.injEq] at ht
    subst ht
    exact hk first (List.mem_cons_self _ _)

theorem activeRoute_routeKnown (M : JSMath R) (graph : Graph R) (fuel : Nat)
    (userHeading : Vec R) (s : Session) (h : ActiveRoute M graph fuel userHeading s) :
    RouteKnown graph s := by
  induction h with
  | installed s0 d s first hnav =>
    have := navigateTo_routeKnown M graph fuel userHeading s0 d
      (Or.inr ⟨first, by rw [hnav]⟩)
    rw [hnav] at this
    exact this
  | advanced s _ ih => exact advanceStep_routeKnown graph s ih
  | reached s n _ ih => exact onNodeReached_routeKnown graph s n ih
  | renavigated s d _ ih =>
    exact navigateTo_routeKnown M graph fuel userHeading s d (Or.inl ih)

/-- C5, as the code behaves: `navigateTo(destination)` with `destination`
equal to the current start node, a key of the graph, throws a `TypeError` at
`activeDirections[0].to`, after the instruction sequence has been set to the
empty sequence and the step index to 0; the current target is not touched. -/
theorem navigateTo_start_throws (M : JSMath R) (graph : Graph R) (fuel : Nat)
    (userHeading : Vec R) (s : Session)
    (hstart : (getNode graph s.startNode).isSome = true) :
    navigateTo M graph (fuel + 1) userHeading s s.startNode =
      ({ s with activeDirections := [], currentStepIndex := 0 }, .throw .typeError) := by
  obtain ⟨n, hn⟩ := Option.isSome_iff_exists.mp hstart
  simp [navigateTo, hn, aStar_self M graph fuel s.startNode hstart, extractDirections,
    extractLoop]

/-- C4: when `navigateTo(destination)` fails because `destination` is not a
key of the graph or because `aStar` found no path from the start node, it
returns `null` and the session is exactly the one before the call. -/
theorem navigateTo_failure_keeps_session (M : JSMath R) (graph : Graph R) (fuel : Nat)
    (userHeading : Vec R) (s : Session) (destination : String)
    (hfail : getNode graph destination = none ∨
      aStar M graph fuel s.startNode destination = .ok none) :
    navigateTo M graph fuel userHeading s destination = (s, .ret none) := by
  unfold navigateTo
  cases hd : getNode graph destination with
  | none => rfl
  | some nd =>
    rcases hfail with h | h
    · rw [hd] at h
      exact absurd h (by simp)
    · simp [h]

/-- C8: in a session with an active route, `onNodeReached(t)` on the current
target `t` sets the start node to `t`, raises the step index by exactly one
and returns what `advanceStep` returns. -/
theorem onNodeReached_target_advances (M : JSMath R) (graph : Graph R) (fuel : Nat)
    (userHeading : Vec R) (s : Session) (t : String)
    (hactive : ActiveRoute M graph fuel userHeading s)
    (htarget : s.currentTargetNode = some t) :
    onNodeReached graph s t = advanceStep { s with startNode := t } ∧
    (onNodeReached graph s t).1.currentStepIndex = s.currentStepIndex + 1 ∧
    (onNodeReached graph s t).1.startNode = t := by
  have hk := (activeRoute_routeKnown M graph fuel userHeading s hactive).1 t htarget
  obtain ⟨n, hn⟩ := Option.isSome_iff_exists.mp hk
  have hset : setStartNode graph s t = { s with startNode := t } := by
    simp [setStartNode, hn]
  have hon : onNodeReached graph s t = advanceStep { s with startNode := t } := by
    unfold onNodeReached
    rw [if_neg (by simp [htarget]), hset]
  refine ⟨hon, ?_, ?_⟩
  · rw [hon, advanceStep_index]
  · rw [hon, advanceStep_startNode]

end RouteSessionFacts

/-- C7: `onNodeReached(nodeId)` with `nodeId` different from the current
target returns `null` and leaves the whole session as it was. -/
theorem onNodeReached_stray {R : Type} (graph : Graph R) (s : Session) (nodeId : String)
    (hstray : s.currentTargetNode ≠ some nodeId) :
    onNodeReached graph s nodeId = (s, none) := by
  unfold onNodeReached
  rw [if_pos hstray]

/-- C9: `advanceStep()` always raises the step index by one and keeps the
instruction sequence and the start node; when the new index is at or past the
length it returns `null`, otherwise it returns the step at the new index and
makes its `to` the current target. -/
theorem advanceStep_spec (s : Session) :
    (advanceStep s).1.currentStepIndex = s.currentStepIndex + 1 ∧
    (advanceStep s).1.activeDirections = s.activeDirections ∧
    (advanceStep s).1.startNode = s.startNode ∧
    (if s.activeDirections.length ≤ s.currentStepIndex + 1 then
      (advanceStep s).2 = none
    else
      ∃ step, s.activeDirections[s.currentStepIndex + 1]? = some step ∧
        (advanceStep s).2 = some step ∧
        (advanceStep s).1.currentTargetNode = some step.to_) := by
  unfold advanceStep
  by_cases h : s.activeDirections.length ≤ s.currentStepIndex + 1
  · simp [h]
  · simp only [h, dite_false, if_false, true_and]
    refine ⟨s.activeDirections.get ⟨s.currentStepIndex + 1, Nat.lt_of_not_le h⟩, ?_, rfl, rfl⟩
    simp [List.getElem?_eq_getElem (Nat.lt_of_not_le h)]

/-- C10, as stated, fails: after `navigateTo("A")` and `onNodeReached("A")` on
the sample map the step index equals the length of the instruction sequence
and the current target is still `"A"`. -/
theorem arrived_target_not_none :
    (onNodeReached sampleGraph routeToA "A").1.currentStepIndex =
      (onNodeReached sampleGraph routeToA "A").1.activeDirections.length ∧
    (onNodeReached sampleGraph routeToA "A").1.currentTargetNode = some "A" ∧
    (advanceStep routeToA).1.currentStepIndex =
      (advanceStep routeToA).1.activeDirections.length ∧
    (advanceStep routeToA).1.currentTargetNode ≠ none := by
  decide

/-- C10, amended: when `advanceStep`, called directly or through
`onNodeReached` on the current target, moves the step index to or past the
length of the instruction sequence, it returns `null` and the current target
keeps the value it had before the call. -/
theorem arrived_target_kept {R : Type} (graph : Graph R) (s : Session) (t : String)
    (hlast : s.activeDirections.length ≤ s.currentStepIndex + 1) :
    (advanceStep s).1.currentTargetNode = s.currentTargetNode ∧
    (advanceStep s).2 = none ∧
    (s.currentTargetNode = some t →
      (onNodeReached graph s t).1.currentTargetNode = some t ∧
      (onNodeReached graph s t).2 = none) := by
  have hadv : ∀ s1 : Session, s1.activeDirections.length ≤ s1.currentStepIndex + 1 →
      (advanceStep s1).1.currentTargetNode = s1.currentTargetNode ∧
      (advanceStep s1).2 = none := by
    intro s1 h1
    unfold advanceStep
    simp [h1]
  refine ⟨(hadv s hlast).1, (hadv s hlast).2, ?_⟩
  intro ht
  have hset : (setStartNode graph s t).activeDirections = s.activeDirections ∧
      (setStartNode graph s t).currentStepIndex = s.currentStepIndex ∧
      (setStartNode graph s t).currentTargetNode = s.currentTargetNode := by
    unfold setStartNode
    cases getNode graph t <;> simp
  have h2 := hadv (setStartNode graph s t) (by rw [hset.1, hset.2.1]; exact hlast)
  unfold onNodeReached
  rw [if_neg (by simp [ht])]
  exact ⟨by rw [h2.1, hset.2.2, ht], h2.2⟩

/-! ## Concrete runs -/

theorem navigateTo_start_throws_witness :
    (getNode sampleGraph initialSession.startNode).isSome = true ∧
    navigateTo taxicabMath sampleGraph (9 + 1) initialHeading initialSession
        initialSession.startNode =
      ({ initialSession with activeDirections := [], currentStepIndex := 0 },
        .throw .typeError) :=
  ⟨by decide, navigateTo_start_throws taxicabMath sampleGraph 9 initialHeading
    initialSession (by decide)⟩

theorem navigateTo_failure_keeps_session_witness :
    (getNode islandGraph "C" = none ∨
      aStar taxicabMath islandGraph 10 routeToB.startNode "C" = .ok none) ∧
    navigateTo taxicabMath islandGraph 10 initialHeading routeToB "C" =
      (routeToB, .ret none) :=
  ⟨Or.inr (by decide), navigateTo_failure_keeps_session taxicabMath islandGraph 10
    initialHeading routeToB "C" (Or.inr (by decide))⟩

theorem onNodeReached_stray_witness :
    routeToB.currentTargetNode ≠ some "B" ∧
    onNodeReached sampleGraph routeToB "B" = (routeToB, none) :=
  ⟨by decide, onNodeReached_stray sampleGraph routeToB "B" (by decide)⟩

theorem onNodeReached_target_advances_witness :
    ActiveRoute taxicabMath sampleGraph 10 initialHeading routeToB ∧
    routeToB.currentTargetNode = some "A" ∧
    onNodeReached sampleGraph routeToB "A" =
      advanceStep { routeToB with startNode := "A" } ∧
    (onNodeReached sampleGraph routeToB "A").1.currentStepIndex =
      routeToB.currentStepIndex + 1 ∧
    (onNodeReached sampleGraph routeToB "A").1.startNode = "A" :=
  ⟨ActiveRoute.installed initialSession "B" routeToB
      { from_ := "GATE", to_ := "A", action := .START_FORWARD } (by decide),
    by decide,
    onNodeReached_target_advances taxicabMath sampleGraph 10 initialHeading routeToB "A"
      (ActiveRoute.installed initialSession "B" routeToB
        { from_ := "GATE", to_ := "A", action := .START_FORWARD } (by decide))
      (by decide)⟩

theorem arrived_target_kept_witness :
    routeToA.activeDirections.length ≤ routeToA.currentStepIndex + 1 ∧
    (advanceStep routeToA).1.currentTargetNode = routeToA.currentTargetNode ∧
    (advanceStep routeToA).2 = none ∧
    (routeToA.currentTargetNode = some "A" →
      (onNodeReached sampleGraph routeToA "A").1.currentTargetNode = some "A" ∧
      (onNodeReached sampleGraph routeToA "A").2 = none) :=
  ⟨by decide, arrived_target_kept sampleGraph routeToA "A" (by decide)⟩

/-! ## Returned paths under any arithmetic -/

theorem pickCurrent_mem {R : Type} [LT R] [@DecidableRel R (· < ·)] (fScore : String → WithTop R) (rest : List String) :
    ∀ a : String, pickCurrent fScore a rest ∈ a :: rest := by
  induction rest with
  | nil => intro a; simp [pickCurrent]
  | cons b tl ih =>
    intro a
    have hstep : pickCurrent fScore a (b :: tl) =
        pickCurrent fScore (if fScore a < fScore b then a else b) tl := by
      simp [pickCurrent, List.foldl]
    rw [hstep]
    by_cases hab : fScore a < fScore b
    · rw [if_pos hab]
      rcases List.mem_cons.mp (ih a) with h | h
      · rw [h]; exact List.mem_cons_self _ _
      · exact List.mem_cons_of_mem _ (List.mem_cons_of_mem _ h)
    · rw [if_neg hab]
      exact List.mem_cons_of_mem _ (ih b)

theorem linked_update (cf : String → Option String) (v c u : String)
    (h : ∃ w, cf u = some w) : ∃ w, Function.update cf v (some c) u = some w := by
  by_cases huv : u = v
  · subst huv
    exact ⟨c, by simp⟩
  · rw [Function.update_noteq huv]
    exact h

theorem relax_link {R : Type} [Add R] [Sub R] [LT R] [@DecidableRel R (· < ·)]
    (M : JSMath R) (graph : Graph R) (start goal cur v : String)
    (st st1 : SearchState R) (hinv : LinkInv graph start st)
    (hcur : cur = start ∨ ∃ w, st.cameFrom cur = some w)
    (hedge : isEdge graph cur v = true)
    (hr : relax M graph goal cur st v = .ok st1) :
    LinkInv graph start st1 ∧ (cur = start ∨ ∃ w, st1.cameFrom cur = some w) := by
  unfold relax at hr
  cases hd : heuristic M (getNode graph cur) (getNode graph v) with
  | error e => simp [hd] at hr
  | ok d =>
    simp only [hd] at hr
    by_cases hlt : st.gScore cur + (d : WithTop R) < st.gScore v
    · rw [if_pos hlt] at hr
      cases hh : heuristic M (getNode graph v) (getNode graph goal) with
      | error e => simp [hh] at hr
      | ok h =>
        simp only [hh, Except.ok.injEq] at hr
        subst hr
        refine ⟨⟨?_, ?_, ?_⟩, ?_⟩
        · intro x u hx
          by_cases hxv : x = v
          · subst hxv
            simp only [Function.update_same, Option.some.injEq] at hx
            subst hx
            exact hedge
          · simp only [Function.update_noteq hxv] at hx
            exact hinv.edge x u hx
        · intro x u hx
          have hu : u = start ∨ ∃ w, st.cameFrom u = some w := by
            by_cases hxv : x = v
            · subst hxv
              simp only [Function.update_same, Option.some.injEq] at hx
              subst hx
              exact hcur
            · simp only [Function.update_noteq hxv] at hx
              exact hinv.back x u hx
          rcases hu with h1 | h1
          · exact Or.inl h1
          · exact Or.inr (linked_update _ _ _ _ h1)
        · intro x hx
          rcases (mem_setAdd _ _ _).mp hx with h1 | h1
          · rcases hinv.openLinked x h1 with h2 | h2
            · exact Or.inl h2
            · exact Or.inr (linked_update _ _ _ _ h2)
          · subst h1
            exact Or.inr ⟨cur, by simp⟩
        · rcases hcur with h1 | h1
          · exact Or.inl h1
          · exact Or.inr (linked_update _ _ _ _ h1)
    · rw [if_neg hlt] at hr
      simp only [Except.ok.injEq] at hr
      subst hr
      exact ⟨hinv, hcur⟩

theorem relaxAll_link {R : Type} [Add R] [Sub R] [LT R] [@DecidableRel R (· < ·)]
    (M : JSMath R) (graph : Graph R) (start goal cur : String) :
    ∀ (l : List String) (st st1 : SearchState R), LinkInv graph start st →
      (cur = start ∨ ∃ w, st.cameFrom cur = some w) →
      (∀ v ∈ l, isEdge graph cur v = true) →
      relaxAll M graph goal cur st l = .ok st1 → LinkInv graph start st1 := by
  intro l
  induction l with
  | nil =>
    intro st st1 hinv _ _ hr
    simp only [relaxAll, Except.ok.injEq] at hr
    subst hr
    exact hinv
  | cons v rest ih =>
    intro st st1 hinv hcur hedges hr
    rw [relaxAll] at hr
    cases h1 : relax M graph goal cur st v with
    | error e => simp [h1] at hr
    | ok st2 =>
      simp only [h1] at hr
      obtain ⟨hinv2, hcur2⟩ := relax_link M graph start goal cur v st st2 hinv hcur
        (hedges v (List.mem_cons_self _ _)) h1
      exact ih st2 st1 hinv2 hcur2 (fun w hw => hedges w (List.mem_cons_of_mem _ hw)) hr

/-- When no key of the graph is the empty string, what the loop of
`reconstructPath` returns starts at the start node and follows edges. -/
theorem reconstructLoop_route {R : Type} (graph : Graph R) (start : String)
    (cf : String → Option String)
    (hedge : ∀ v u, cf v = some u → isEdge graph u v = true)
    (hback : ∀ v u, cf v = some u → u = start ∨ ∃ w, cf u = some w)
    (hne : getNode graph "" = none) :
    ∀ (fuel : Nat) (cur : String) (tail p : List String),
      reconstructLoop cf fuel cur (cur :: tail) = .ok p →
      (cur = start ∨ ∃ w, cf cur = some w) →
      followsEdges graph (cur :: tail) = true →
      p.head? = some start ∧ followsEdges graph p = true ∧
        p.getLast? = (cur :: tail).getLast? := by
  intro fuel
  induction fuel with
  | zero =>
    intro cur tail p h
    simp [reconstructLoop] at h
  | succ n ih =>
    intro cur tail p h hcur hf
    rw [reconstructLoop] at h
    cases hc : cf cur with
    | none =>
      simp only [hc, Except.ok.injEq] at h
      subst h
      rcases hcur with h1 | ⟨w, h1⟩
      · exact ⟨by simp [h1], hf, rfl⟩
      · rw [hc] at h1; exact absurd h1 (by simp)
    | some prev =>
      simp only [hc] at h
      have he := hedge cur prev hc
      by_cases hp : prev = ""
      · exfalso
        obtain ⟨n1, hn1, _⟩ := (isEdge_iff graph prev cur).mp he
        rw [hp, hne] at hn1
        exact absurd hn1 (by simp)
      · rw [if_neg hp] at h
        obtain ⟨h1, h2, h3⟩ := ih prev (cur :: tail) p h (hback cur prev hc) (by
          simp only [followsEdges, Bool.and_eq_true]
          exact ⟨he, hf⟩)
        refine ⟨h1, h2, ?_⟩
        rw [h3]
        simp [List.getLast?_cons_cons]

theorem aStarLoop_link {R : Type} [Add R] [Sub R] [LT R] [@DecidableRel R (· < ·)]
    (M : JSMath R) (graph : Graph R) (start goal : String)
    (rfuel : Nat) (hne : getNode graph "" = none) :
    ∀ (fuel : Nat) (st : SearchState R) (p : List String), LinkInv graph start st →
      aStarLoop M graph goal rfuel fuel st = .ok (some p) →
      isRoute graph start goal p = true := by
  intro fuel
  induction fuel with
  | zero =>
    intro st p _ h
    simp [aStarLoop] at h
  | succ n ih =>
    intro st p hinv h
    rw [aStarLoop] at h
    cases hopen : st.openSet with
    | nil => simp [hopen] at h
    | cons a rest =>
      simp only [hopen] at h
      have hmem := pickCurrent_mem st.fScore rest a
      rw [← hopen] at hmem
      generalize pickCurrent st.fScore a rest = cur at h hmem
      have hcur := hinv.openLinked cur hmem
      by_cases hcg : cur = goal
      · rw [if_pos hcg] at h
        cases hrec : reconstructPath st.cameFrom rfuel cur with
        | error e => simp [hrec] at h
        | ok path =>
          simp only [hrec, Except.ok.injEq, Option.some.injEq] at h
          subst h
          unfold reconstructPath at hrec
          obtain ⟨h1, h2, h3⟩ := reconstructLoop_route graph start st.cameFrom hinv.edge
            hinv.back hne rfuel cur [] path hrec hcur (by simp [followsEdges])
          unfold isRoute
          rw [h2]
          simp only [Bool.and_true, Bool.and_eq_true, decide_eq_true_eq]
          exact ⟨h1, by rw [h3, hcg]; simp⟩
      · rw [if_neg hcg] at h
        cases hnode : getNode graph cur with
        | none => simp [hnode] at h
        | some node =>
          simp only [hnode] at h
          cases hrel : relaxAll M graph goal cur
              { st with openSet := (a :: rest).erase cur } node.neighbors with
          | error e => simp [hrel] at h
          | ok st1 =>
            simp only [hrel] at h
            have hinv0 : LinkInv graph start
                ({ st with openSet := (a :: rest).erase cur } : SearchState R) :=
              ⟨hinv.edge, hinv.back, fun v hv =>
                hinv.openLinked v (by rw [hopen]; exact List.mem_of_mem_erase hv)⟩
            have hinv1 := relaxAll_link M graph start goal cur node.neighbors _ st1 hinv0 hcur
              (fun v hv => (isEdge_iff graph cur v).mpr ⟨node, hnode, hv⟩) hrel
            exact ih st1 p hinv1 h

/-- Under any arithmetic, on a graph none of whose keys is the empty string,
whatever path `aStar(start, goal)` returns starts at `start`, ends at `goal`
and follows neighbor lists. -/
theorem aStar_returns_route {R : Type} [Zero R] [Add R] [Sub R] [LT R]
    [@DecidableRel R (· < ·)] (M : JSMath R) (graph : Graph R) (fuel : Nat)
    (start goal : String) (p : List String) (hne : getNode graph "" = none)
    (h : aStar M graph fuel start goal = .ok (some p)) :
    isRoute graph start goal p = true := by
  unfold aStar at h
  cases hh : heuristic M (getNode graph start) (getNode graph goal) with
  | error e => simp [hh] at h
  | ok h0 =>
    simp only [hh] at h
    refine aStarLoop_link M graph start goal fuel hne fuel _ p ?_ h
    exact ⟨fun v u hv => by simp at hv, fun v u hv => by simp at hv,
      fun v hv => Or.inl (by simpa using hv)⟩

/-! ## Extraction and installation of a route -/

section ExtractFacts

variable {R : Type} [Zero R] [Add R] [Sub R] [Mul R] [Div R] [NatCast R]
  [LT R] [@DecidableRel R (· < ·)]

/-- On a path all of whose nodes are keys of the graph the extraction loop
returns one step per consecutive pair, from the first node of the pair to the
second. -/
theorem extractLoop_ok (M : JSMath R) (graph : Graph R) :
    ∀ (path : List String) (i : Nat) (heading : Vec R),
      (∀ u ∈ path, (getNode graph u).isSome = true) →
      ∃ steps, extractLoop M graph i heading path = .ok steps ∧
        steps.map Step.from_ = path.dropLast ∧ steps.map Step.to_ = path.tail := by
  intro path
  induction path with
  | nil =>
    intro i heading _
    exact ⟨[], by simp [extractLoop], by simp, by simp⟩
  | cons a tl ih =>
    intro i heading hk
    cases tl with
    | nil => exact ⟨[], by simp [extractLoop], by simp, by simp⟩
    | cons b rest =>
      obtain ⟨na, hna⟩ := Option.isSome_iff_exists.mp (hk a (List.mem_cons_self _ _))
      obtain ⟨nb, hnb⟩ := Option.isSome_iff_exists.mp
        (hk b (List.mem_cons_of_mem _ (List.mem_cons_self _ _)))
      obtain ⟨more, hmore, hfrom, hto⟩ := ih (i + 1)
        (normalize M { x := nb.x - na.x, y := nb.y - na.y })
        (fun u hu => hk u (List.mem_cons_of_mem _ hu))
      refine ⟨{ from_ := a, to_ := b,
                action := if i = 1 then Action.START_FORWARD
                  else directionFromHeading M heading
                    { x := nb.x - na.x, y := nb.y - na.y } } :: more, ?_, ?_, ?_⟩
      · rw [extractLoop]
        simp only [hna, hnb, hmore]
      · simp only [List.map_cons, hfrom]
        simp [List.dropLast]
      · simp only [List.map_cons, hto]
        simp

/-- The first step of `extractDirections` on a path of at least two known
nodes goes from the first node to the second and is labelled START_FORWARD. -/
theorem extractDirections_first (M : JSMath R) (graph : Graph R) (userHeading : Vec R)
    (a b : String) (rest : List String)
    (hk : ∀ u ∈ a :: b :: rest, (getNode graph u).isSome = true) :
    ∃ more, extractDirections M graph userHeading (a :: b :: rest) =
      .ok ({ from_ := a, to_ := b, action := .START_FORWARD } :: more) := by
  obtain ⟨na, hna⟩ := Option.isSome_iff_exists.mp (hk a (List.mem_cons_self _ _))
  obtain ⟨nb, hnb⟩ := Option.isSome_iff_exists.mp
    (hk b (List.mem_cons_of_mem _ (List.mem_cons_self _ _)))
  obtain ⟨more, hmore, _, _⟩ := extractLoop_ok M graph (b :: rest) (1 + 1)
    (normalize M { x := nb.x - na.x, y := nb.y - na.y })
    (fun u hu => hk u (List.mem_cons_of_mem _ hu))
  refine ⟨more, ?_⟩
  unfold extractDirections
  rw [extractLoop]
  simp only [hna, hnb, hmore, if_true]

end ExtractFacts

/-- Over the reals with `Math.hypot` the Euclidean norm, on a graph whose
listed neighbors are all keys and none of whose keys is the empty string:
`navigateTo(d)` for a destination `d` other than the start node and reachable
from it installs the steps extracted from the path found, sets the step index
to 0 and the target to the `to` of step 0, and returns step 0, which goes from
the start node and is labelled START_FORWARD. -/
theorem navigateTo_installs_route (M : JSMath ℝ)
    (hM : ∀ a b, M.hypot a b = Real.sqrt (a * a + b * b))
    (graph : Graph ℝ) (hwf : neighborsKnown graph = true)
    (hne : getNode graph "" = none) (userHeading : Vec ℝ) (s : Session) (d : String)
    (hstart : (getNode graph s.startNode).isSome = true)
    (hd : (getNode graph d).isSome = true) (hds : d ≠ s.startNode)
    (hreach : ∃ q, isRoute graph s.startNode d q = true)
    (fuel : Nat) (hfuel : graph.length < fuel) :
    ∃ path first more,
      aStar M graph fuel s.startNode d = .ok (some path) ∧
      extractDirections M graph userHeading path = .ok (first :: more) ∧
      first.from_ = s.startNode ∧ first.action = .START_FORWARD ∧
      navigateTo M graph fuel userHeading s d =
        ({ activeDirections := first :: more, currentStepIndex := 0,
           currentTargetNode := some first.to_, startNode := s.startNode },
          .ret (some first)) := by
  obtain ⟨hnn, hsub⟩ := hypot_euclid_laws M hM
  obtain ⟨path, hpath, _, hroute⟩ :=
    aStar_reachable M graph s.startNode d hnn hsub hwf hstart hd hreach fuel hfuel
  have hr := hroute hne
  unfold isRoute at hr
  simp only [Bool.and_eq_true, decide_eq_true_eq] at hr
  obtain ⟨⟨hhead, hlast⟩, hf⟩ := hr
  cases path with
  | nil => simp at hhead
  | cons a tl =>
    have ha : a = s.startNode := by simpa using hhead
    subst ha
    cases tl with
    | nil =>
      exfalso
      apply hds
      simpa using hlast.symm
    | cons b rest =>
      have hk := followsEdges_known graph hwf (b :: rest) s.startNode hstart hf
      obtain ⟨more, hmore⟩ := extractDirections_first M graph userHeading s.startNode b rest hk
      obtain ⟨nd, hnd⟩ := Option.isSome_iff_exists.mp hd
      refine ⟨s.startNode :: b :: rest, _, more, hpath, hmore, rfl, rfl, ?_⟩
      simp [navigateTo, hnd, hpath, hmore]

/-- Over the reals with `Math.hypot` the Euclidean norm, on a graph whose
listed neighbors are all keys: `navigateTo` to a destination that no route
from the start node reaches returns `null` and leaves the session as it was. -/
theorem navigateTo_unreachable_keeps_session (M : JSMath ℝ)
    (hM : ∀ a b, M.hypot a b = Real.sqrt (a * a + b * b))
    (graph : Graph ℝ) (hwf : neighborsKnown graph = true)
    (userHeading : Vec ℝ) (s : Session) (d : String)
    (hstart : (getNode graph s.startNode).isSome = true)
    (hunreach : ∀ q, isRoute graph s.startNode d q = false)
    (fuel : Nat) (hfuel : graph.length < fuel) :
    navigateTo M graph fuel userHeading s d = (s, .ret none) := by
  cases hd : getNode graph d with
  | none => simp [navigateTo, hd]
  | some nd =>
    obtain ⟨hnn, hsub⟩ := hypot_euclid_laws M hM
    have ha := aStar_no_route M graph s.startNode d hnn hsub hwf hstart (by simp [hd])
      hunreach fuel hfuel
    simp [navigateTo, hd, ha]

/-! ## The direction extractor -/

section ExtractShape

variable {R : Type} [Zero R] [Add R] [Sub R] [Mul R] [Div R] [NatCast R]
  [LT R] [@DecidableRel R (· < ·)]

/-- Whatever the extraction loop returns has one step per consecutive pair of
the path, from the first node of the pair to the second. -/
theorem extractLoop_shape (M : JSMath R) (graph : Graph R) :
    ∀ (path : List String) (i : Nat) (heading : Vec R) (steps : List Step),
      extractLoop M graph i heading path = .ok steps →
      steps.map Step.from_ = path.dropLast ∧ steps.map Step.to_ = path.tail := by
  intro path i heading steps h
  have hk : ∀ u ∈ path.tail, (getNode graph u).isSome = true := by
    induction path generalizing i heading steps with
    | nil => intro u hu; simp at hu
    | cons a tl ih =>
      cases tl with
      | nil => intro u hu; simp at hu
      | cons b rest =>
        rw [extractLoop] at h
        cases hb : getNode graph b with
        | none => simp [hb] at h
        | some nb =>
          cases ha : getNode graph a with
          | none => simp [hb, ha] at h
          | some na =>
            simp only [hb, ha] at h
            cases hrec : extractLoop M graph (i + 1)
                (normalize M { x := nb.x - na.x, y := nb.y - na.y }) (b :: rest) with
            | error e => simp [hrec] at h
            | ok more =>
              intro u hu
              simp only [List.tail_cons] at hu
              rcases List.mem_cons.mp hu with h1 | h1
              · rw [h1, hb]; rfl
              · exact ih (i + 1) _ more hrec u (by simpa using h1)
  induction path generalizing i heading steps with
  | nil =>
    simp only [extractLoop, Except.ok.injEq] at h
    subst h
    simp
  | cons a tl ih =>
    cases tl with
    | nil =>
      simp only [extractLoop, Except.ok.injEq] at h
      subst h
      simp
    | cons b rest =>
      rw [extractLoop] at h
      cases hb : getNode graph b with
      | none => simp [hb] at h
      | some nb =>
        cases ha : getNode graph a with
        | none => simp [hb, ha] at h
        | some na =>
          simp only [hb, ha] at h
          cases hrec : extractLoop M graph (i + 1)
              (normalize M { x := nb.x - na.x, y := nb.y - na.y }) (b :: rest) with
          | error e => simp [hrec] at h
          | ok more =>
            simp only [hrec, Except.ok.injEq] at h
            subst h
            obtain ⟨h1, h2⟩ := ih (i + 1) _ more hrec
              (fun u hu => hk u (by
                simp only [List.tail_cons] at hu ⊢
                exact List.mem_cons_of_mem _ hu))
            simp only [List.map_cons, h1, h2]
            simp [List.dropLast]

/-- In a list of steps shaped after a path, step `k` goes from `path[k]` to
`path[k + 1]`. -/
theorem steps_index (path : List String) (steps : List Step)
    (hfrom : steps.map Step.from_ = path.dropLast) (hto : steps.map Step.to_ = path.tail) :
    steps.length = path.length - 1 ∧
    ∀ k step, steps[k]? = some step →
      path[k]? = some step.from_ ∧ path[k + 1]? = some step.to_ := by
  have hlen : steps.length = path.length - 1 := by
    have := congrArg List.length hfrom
    simpa using this
  refine ⟨hlen, ?_⟩
  intro k step hk
  have hklt : k < steps.length := by
    rcases List.getElem?_eq_some.mp hk with ⟨h, _⟩
    exact h
  constructor
  · have h1 : (steps.map Step.from_)[k]? = some step.from_ := by
      rw [List.getElem?_map, hk]; rfl
    rw [hfrom, List.dropLast_eq_take, List.getElem?_take] at h1
    rw [if_pos (by omega)] at h1
    exact h1
  · have h1 : (steps.map Step.to_)[k]? = some step.to_ := by
      rw [List.getElem?_map, hk]; rfl
    rw [hto, List.getElem?_tail] at h1
    exact h1

/-- The label of the first step produced by the loop entered at index `i`. -/
theorem extractLoop_head_action (M : JSMath R) (graph : Graph R) (i : Nat) (heading : Vec R)
    (a b : String) (rest : List String) (na nb : Node R)
    (ha : getNode graph a = some na) (hb : getNode graph b = some nb)
    (steps : List Step) (h : extractLoop M graph i heading (a :: b :: rest) = .ok steps) :
    ∃ more, steps = Step.mk a b
        (if i = 1 then Action.START_FORWARD
          else directionFromHeading M heading { x := nb.x - na.x, y := nb.y - na.y }) :: more ∧
      extractLoop M graph (i + 1) (normalize M { x := nb.x - na.x, y := nb.y - na.y })
        (b :: rest) = .ok more := by
  rw [extractLoop] at h
  simp only [ha, hb] at h
  cases hrec : extractLoop M graph (i + 1)
      (normalize M { x := nb.x - na.x, y := nb.y - na.y }) (b :: rest) with
  | error e => simp [hrec] at h
  | ok more =>
    simp only [hrec, Except.ok.injEq] at h
    exact ⟨more, h.symm, rfl⟩

/-- Every step after the first is labelled by `directionFromHeading` applied
to the normalized movement vector of the step before it and to its own
movement vector. -/
theorem extractLoop_later_action (M : JSMath R) (graph : Graph R) :
    ∀ (path : List String) (i : Nat) (heading : Vec R) (steps : List Step),
      1 ≤ i → extractLoop M graph i heading path = .ok steps →
      ∀ (k : Nat) (a b c : String) (na nb nc : Node R),
        path[k]? = some a → path[k + 1]? = some b → path[k + 2]? = some c →
        getNode graph a = some na → getNode graph b = some nb → getNode graph c = some nc →
        ∃ step, steps[k + 1]? = some step ∧ step.from_ = b ∧ step.to_ = c ∧
          step.action = directionFromHeading M
            (normalize M { x := nb.x - na.x, y := nb.y - na.y })
            { x := nc.x - nb.x, y := nc.y - nb.y } := by
  intro path
  induction path with
  | nil =>
    intro i heading steps _ _ k a b c na nb nc h0
    simp at h0
  | cons x tl ih =>
    intro i heading steps hi h k a b c na nb nc h0 h1 h2 ha hb hc
    cases tl with
    | nil => simp at h1
    | cons y rest =>
      have hy : (getNode graph y).isSome = true := by
        rw [extractLoop] at h
        cases hyy : getNode graph y with
        | none => simp [hyy] at h
        | some _ => rfl
      have hx : (getNode graph x).isSome = true := by
        rw [extractLoop] at h
        cases hxx : getNode graph x with
        | none =>
          cases hyy : getNode graph y <;> simp [hxx, hyy] at h
        | some _ => rfl
      obtain ⟨nx, hnx⟩ := Option.isSome_iff_exists.mp hx
      obtain ⟨ny, hny⟩ := Option.isSome_iff_exists.mp hy
      obtain ⟨more, hsteps, hmore⟩ :=
        extractLoop_head_action M graph i heading x y rest nx ny hnx hny steps h
      subst hsteps
      cases k with
      | zero =>
        simp only [List.getElem?_cons_zero, Option.some.injEq] at h0
        simp only [zero_add, List.getElem?_cons_succ, List.getElem?_cons_zero,
          Option.some.injEq] at h1
        subst h0
        subst h1
        rw [hnx] at ha
        rw [hny] at hb
        cases ha
        cases hb
        cases rest with
        | nil => simp at h2
        | cons z rest2 =>
          simp only [zero_add, List.getElem?_cons_succ, List.getElem?_cons_zero,
            Option.some.injEq] at h2
          subst h2
          obtain ⟨more2, hm2, _⟩ := extractLoop_head_action M graph (i + 1) _ y z rest2
            nb nc hny hc more hmore
          have hne : ¬ (i + 1 = 1) := by omega
          refine ⟨Step.mk y z (directionFromHeading M
            (normalize M { x := nb.x - na.x, y := nb.y - na.y })
            { x := nc.x - nb.x, y := nc.y - nb.y }), ?_, rfl, rfl, rfl⟩
          simp only [zero_add, List.getElem?_cons_succ, hm2, List.getElem?_cons_zero, hne,
            if_false]
      | succ k1 =>
        have := ih (i + 1) _ more (by omega) hmore k1 a b c na nb nc
          (by simpa using h0) (by simpa using h1) (by simpa using h2) ha hb hc
        obtain ⟨step, hs, hrest⟩ := this
        exact ⟨step, by simpa using hs, hrest⟩

end ExtractShape

section ExtractClaims

variable {R : Type} [Zero R] [Add R] [Sub R] [Mul R] [Div R] [NatCast R]
  [LT R] [@DecidableRel R (· < ·)]

/-- C11: for every path of at least two nodes of the graph and every initial
heading, `extractDirections` returns a non-empty step sequence whose first
step goes from the first node to the second and is labelled START_FORWARD. -/
theorem extractDirections_starts_forward (M : JSMath R) (graph : Graph R)
    (userHeading : Vec R) (a b : String) (rest : List String)
    (hk : ∀ u ∈ a :: b :: rest, (getNode graph u).isSome = true) :
    ∃ first more, extractDirections M graph userHeading (a :: b :: rest) =
        .ok (first :: more) ∧
      first.action = .START_FORWARD ∧ first.from_ = a ∧ first.to_ = b := by
  obtain ⟨more, hmore⟩ := extractDirections_first M graph userHeading a b rest hk
  exact ⟨_, more, hmore, rfl, rfl, rfl⟩

/-- C12: for every path of nodes of the graph, `extractDirections` returns one
step less than the path has nodes, step `k` going from `path[k]` to
`path[k + 1]`; a path of one node yields the empty step sequence. -/
theorem extractDirections_steps (M : JSMath R) (graph : Graph R) (userHeading : Vec R)
    (path : List String) (hk : ∀ u ∈ path, (getNode graph u).isSome = true) :
    ∃ steps, extractDirections M graph userHeading path = .ok steps ∧
      steps.length = path.length - 1 ∧
      (∀ k step, steps[k]? = some step →
        path[k]? = some step.from_ ∧ path[k + 1]? = some step.to_) ∧
      (path.length = 1 → steps = []) := by
  obtain ⟨steps, hsteps, hfrom, hto⟩ := extractLoop_ok M graph path 1 userHeading hk
  obtain ⟨hlen, hidx⟩ := steps_index path steps hfrom hto
  refine ⟨steps, hsteps, hlen, hidx, ?_⟩
  intro h1
  rw [h1] at hlen
  exact List.length_eq_zero.mp hlen

/-- C19: the result of `extractDirections` does not depend on the initial
heading: any two headings give the same steps, or the same fault. -/
theorem extractDirections_heading_irrelevant (M : JSMath R) (graph : Graph R)
    (heading1 heading2 : Vec R) (path : List String) :
    extractDirections M graph heading1 path = extractDirections M graph heading2 path := by
  unfold extractDirections
  cases path with
  | nil => simp [extractLoop]
  | cons a tl =>
    cases tl with
    | nil => simp [extractLoop]
    | cons b rest =>
      rw [extractLoop, extractLoop]
      simp

end ExtractClaims

theorem extractDirections_starts_forward_witness :
    (∀ u ∈ ["GATE", "A", "B"], (getNode sampleGraph u).isSome = true) ∧
    ∃ first more, extractDirections taxicabMath sampleGraph { x := 7, y := 3 }
        ("GATE" :: "A" :: ["B"]) = .ok (first :: more) ∧
      first.action = .START_FORWARD ∧ first.from_ = "GATE" ∧ first.to_ = "A" :=
  ⟨by decide, extractDirections_starts_forward taxicabMath sampleGraph { x := 7, y := 3 }
    "GATE" "A" ["B"] (by decide)⟩

theorem extractDirections_steps_witness :
    (∀ u ∈ ["GATE", "A", "B"], (getNode sampleGraph u).isSome = true) ∧
    ∃ steps, extractDirections taxicabMath sampleGraph initialHeading ["GATE", "A", "B"] =
        .ok steps ∧
      steps.length = ["GATE", "A", "B"].length - 1 ∧
      (∀ k step, steps[k]? = some step →
        ["GATE", "A", "B"][k]? = some step.from_ ∧
        ["GATE", "A", "B"][k + 1]? = some step.to_) ∧
      (["GATE", "A", "B"].length = 1 → steps = []) :=
  ⟨by decide, extractDirections_steps taxicabMath sampleGraph initialHeading
    ["GATE", "A", "B"] (by decide)⟩

/-! ## Classification of the signed angle -/

section Bands

variable {R : Type} [LinearOrderedField R]

/-- C13: with exact comparisons and `Math.abs` the absolute value, writing `a`
for `signedAngle(heading, movement)`: the label is FORWARD exactly when
`|a| < 20`, BACK exactly when `160 < |a|`, LEFT exactly when `20 ≤ a ≤ 160`
and RIGHT exactly when `-160 ≤ a ≤ -20`; in particular 20 and 160 are LEFT. -/
theorem directionFromHeading_bands (M : JSMath R) (habs : ∀ x, M.abs x = |x|)
    (heading movement : Vec R) :
    (directionFromHeading M heading movement = .FORWARD ↔
      |signedAngle M heading movement| < 20) ∧
    (directionFromHeading M heading movement = .BACK ↔
      160 < |signedAngle M heading movement|) ∧
    (directionFromHeading M heading movement = .LEFT ↔
      20 ≤ signedAngle M heading movement ∧ signedAngle M heading movement ≤ 160) ∧
    (directionFromHeading M heading movement = .RIGHT ↔
      -160 ≤ signedAngle M heading movement ∧ signedAngle M heading movement ≤ -20) ∧
    (signedAngle M heading movement = 20 →
      directionFromHeading M heading movement = .LEFT) ∧
    (signedAngle M heading movement = 160 →
      directionFromHeading M heading movement = .LEFT) := by
  have h20 : ((20 : ℕ) : R) = 20 := by norm_num
  have h160 : ((160 : ℕ) : R) = 160 := by norm_num
  generalize ha : signedAngle M heading movement = a
  have hdef : directionFromHeading M heading movement =
      if |a| < 20 then Action.FORWARD
      else if 160 < |a| then Action.BACK
      else if 0 < a then Action.LEFT
      else Action.RIGHT := by
    simp only [directionFromHeading, ha, habs, h20, h160]
  rw [hdef]
  by_cases h1 : |a| < 20
  · rw [if_pos h1]
    have hb := abs_lt.mp h1
    refine ⟨by simp [h1], ?_, ?_, ?_, ?_, ?_⟩
    · simp only [false_iff, not_lt, reduceCtorEq]
      linarith
    · simp only [false_iff, not_and, not_le, reduceCtorEq]
      intro h; linarith
    · simp only [false_iff, not_and, not_le, reduceCtorEq]
      intro _; linarith
    · intro h; linarith
    · intro h; linarith
  · rw [if_neg h1]
    have h1' : 20 ≤ |a| := not_lt.mp h1
    by_cases h2 : 160 < |a|
    · rw [if_pos h2]
      refine ⟨by simp [h1], by simp [h2], ?_, ?_, ?_, ?_⟩
      · simp only [false_iff, not_and, not_le, reduceCtorEq]
        intro h
        rcases abs_cases a with ⟨he, _⟩ | ⟨he, _⟩ <;> linarith
      · simp only [false_iff, not_and, not_le, reduceCtorEq]
        intro h
        rcases abs_cases a with ⟨he, _⟩ | ⟨he, _⟩ <;> linarith
      · intro h
        rw [h] at h2
        rw [abs_of_pos (by norm_num : (0 : R) < 20)] at h2
        linarith
      · intro h
        rw [h] at h2
        rw [abs_of_pos (by norm_num : (0 : R) < 160)] at h2
        linarith
    · rw [if_neg h2]
      have h2' : |a| ≤ 160 := not_lt.mp h2
      by_cases h3 : 0 < a
      · rw [if_pos h3]
        rw [abs_of_pos h3] at h1' h2'
        refine ⟨by simp [h1], by simp [h2], by simp [h1', h2'], ?_, ?_, ?_⟩
        · simp only [false_iff, not_and, not_le, reduceCtorEq]
          intro _; linarith
        · intro _; rfl
        · intro _; rfl
      · rw [if_neg h3]
        have h3' : a ≤ 0 := not_lt.mp h3
        rw [abs_of_nonpos h3'] at h1' h2'
        refine ⟨by simp [h1], by simp [h2], ?_, ?_, ?_, ?_⟩
        · simp only [false_iff, not_and, not_le, reduceCtorEq]
          intro h; linarith
        · simp only [true_iff]
          constructor <;> linarith
        · intro h; linarith
        · intro h; linarith

end Bands

theorem directionFromHeading_bands_witness :
    (∀ x, (⟨fun a b => Real.sqrt (a * a + b * b), fun _ _ => Real.pi / 9, fun a => |a|,
        Real.pi⟩ : JSMath ℝ).abs x = |x|) ∧
    directionFromHeading (⟨fun a b => Real.sqrt (a * a + b * b), fun _ _ => Real.pi / 9,
        fun a => |a|, Real.pi⟩ : JSMath ℝ) { x := 0, y := 1 } { x := 1, y := 3 } = .LEFT :=
  ⟨fun _ => rfl,
    (directionFromHeading_bands
      (⟨fun a b => Real.sqrt (a * a + b * b), fun _ _ => Real.pi / 9, fun a => |a|,
        Real.pi⟩ : JSMath ℝ) (fun _ => rfl) { x := 0, y := 1 } { x := 1, y := 3 }).2.2.2.2.1
      (by
        simp only [signedAngle]
        have hpi : Real.pi ≠ 0 := Real.pi_ne_zero
        field_simp
        ring)⟩

/-! ## Normalizing the heading -/

/-- Over the reals with the Euclidean `hypot` and the two-argument arctangent,
normalizing a non-zero first vector does not change the signed angle. -/
theorem signedAngle_normalize (M : JSMath ℝ)
    (hhyp : ∀ a b, M.hypot a b = Real.sqrt (a * a + b * b))
    (hatan : ∀ y x, M.atan2 y x = Complex.arg ⟨x, y⟩)
    (v w : Vec ℝ) (hv : v.x ≠ 0 ∨ v.y ≠ 0) :
    signedAngle M (normalize M v) w = signedAngle M v w := by
  have hpos : 0 < v.x * v.x + v.y * v.y := by
    rcases hv with h | h
    · have := mul_self_pos.mpr h
      nlinarith [mul_self_nonneg v.y]
    · have := mul_self_pos.mpr h
      nlinarith [mul_self_nonneg v.x]
  have hm : 0 < Real.sqrt (v.x * v.x + v.y * v.y) := Real.sqrt_pos.mpr hpos
  have hm0 : Real.sqrt (v.x * v.x + v.y * v.y) ≠ 0 := ne_of_gt hm
  simp only [signedAngle, normalize, hhyp, hatan]
  congr 1
  have hz : (⟨v.x / Real.sqrt (v.x * v.x + v.y * v.y) * w.x +
        v.y / Real.sqrt (v.x * v.x + v.y * v.y) * w.y,
      v.x / Real.sqrt (v.x * v.x + v.y * v.y) * w.y -
        v.y / Real.sqrt (v.x * v.x + v.y * v.y) * w.x⟩ : ℂ) =
      (((Real.sqrt (v.x * v.x + v.y * v.y))⁻¹ : ℝ) : ℂ) *
        ⟨v.x * w.x + v.y * w.y, v.x * w.y - v.y * w.x⟩ := by
    apply Complex.ext
    · simp only [Complex.mul_re, Complex.ofReal_re, Complex.ofReal_im, zero_mul, sub_zero]
      field_simp
    · simp only [Complex.mul_im, Complex.ofReal_re, Complex.ofReal_im, zero_mul, add_zero]
      field_simp
  rw [hz, Complex.arg_real_mul _ (inv_pos.mpr hm)]

/-- Over the reals with the Euclidean `hypot` and the two-argument arctangent,
normalizing a non-zero heading does not change the label. -/
theorem directionFromHeading_normalize (M : JSMath ℝ)
    (hhyp : ∀ a b, M.hypot a b = Real.sqrt (a * a + b * b))
    (hatan : ∀ y x, M.atan2 y x = Complex.arg ⟨x, y⟩)
    (v w : Vec ℝ) (hv : v.x ≠ 0 ∨ v.y ≠ 0) :
    directionFromHeading M (normalize M v) w = directionFromHeading M v w := by
  simp only [directionFromHeading, signedAngle_normalize M hhyp hatan v w hv]

/-- In exact arithmetic, that is over the reals with the Euclidean `hypot` and
the two-argument arctangent, on a path of nodes of the graph, every step after
the first whose predecessor joins two nodes at distinct positions is labelled
by `directionFromHeading` applied to the movement vector of the step before it
(not normalized) and to its own movement vector. -/
theorem later_steps_follow_previous_movement (M : JSMath ℝ)
    (hhyp : ∀ a b, M.hypot a b = Real.sqrt (a * a + b * b))
    (hatan : ∀ y x, M.atan2 y x = Complex.arg ⟨x, y⟩)
    (graph : Graph ℝ) (userHeading : Vec ℝ) (path : List String)
    (hk : ∀ u ∈ path, (getNode graph u).isSome = true) :
    ∃ steps, extractDirections M graph userHeading path = .ok steps ∧
      ∀ (k : Nat) (a b c : String) (na nb nc : Node ℝ),
        path[k]? = some a → path[k + 1]? = some b → path[k + 2]? = some c →
        getNode graph a = some na → getNode graph b = some nb → getNode graph c = some nc →
        (na.x ≠ nb.x ∨ na.y ≠ nb.y) →
        ∃ step, steps[k + 1]? = some step ∧ step.from_ = b ∧ step.to_ = c ∧
          step.action = directionFromHeading M
            { x := nb.x - na.x, y := nb.y - na.y }
            { x := nc.x - nb.x, y := nc.y - nb.y } := by
  obtain ⟨steps, hsteps, _, _⟩ := extractLoop_ok M graph path 1 userHeading hk
  refine ⟨steps, hsteps, ?_⟩
  intro k a b c na nb nc h0 h1 h2 ha hb hc hdist
  obtain ⟨step, hs, hf, ht, hact⟩ := extractLoop_later_action M graph path 1 userHeading steps
    (le_refl 1) hsteps k a b c na nb nc h0 h1 h2 ha hb hc
  refine ⟨step, hs, hf, ht, ?_⟩
  rw [hact]
  apply directionFromHeading_normalize M hhyp hatan
  rcases hdist with h | h
  · left
    exact sub_ne_zero.mpr (Ne.symm h)
  · right
    exact sub_ne_zero.mpr (Ne.symm h)

theorem later_steps_follow_previous_movement_witness :
    (∀ a b, (⟨fun a b => Real.sqrt (a * a + b * b), fun y x => Complex.arg ⟨x, y⟩,
        fun a => |a|, Real.pi⟩ : JSMath ℝ).hypot a b = Real.sqrt (a * a + b * b)) ∧
    (∀ y x, (⟨fun a b => Real.sqrt (a * a + b * b), fun y x => Complex.arg ⟨x, y⟩,
        fun a => |a|, Real.pi⟩ : JSMath ℝ).atan2 y x = Complex.arg ⟨x, y⟩) ∧
    (∀ u ∈ ["GATE", "A", "B"], (getNode sampleGraphReal u).isSome = true) ∧
    ∃ steps, extractDirections (⟨fun a b => Real.sqrt (a * a + b * b),
        fun y x => Complex.arg ⟨x, y⟩, fun a => |a|, Real.pi⟩ : JSMath ℝ)
        sampleGraphReal { x := 0, y := -1 } ["GATE", "A", "B"] = .ok steps ∧
      ∀ (k : Nat) (a b c : String) (na nb nc : Node ℝ),
        ["GATE", "A", "B"][k]? = some a → ["GATE", "A", "B"][k + 1]? = some b →
        ["GATE", "A", "B"][k + 2]? = some c →
        getNode sampleGraphReal a = some na → getNode sampleGraphReal b = some nb →
        getNode sampleGraphReal c = some nc →
        (na.x ≠ nb.x ∨ na.y ≠ nb.y) →
        ∃ step, steps[k + 1]? = some step ∧ step.from_ = b ∧ step.to_ = c ∧
          step.action = directionFromHeading (⟨fun a b => Real.sqrt (a * a + b * b),
            fun y x => Complex.arg ⟨x, y⟩, fun a => |a|, Real.pi⟩ : JSMath ℝ)
            { x := nb.x - na.x, y := nb.y - na.y }
            { x := nc.x - nb.x, y := nc.y - nb.y } :=
  ⟨fun _ _ => rfl, fun _ _ => rfl, by decide,
    later_steps_follow_previous_movement _ (fun _ _ => rfl) (fun _ _ => rfl) sampleGraphReal
      { x := 0, y := -1 } ["GATE", "A", "B"] (by decide)⟩

/-! ## Double arithmetic and the edge of a band -/

/-- The operations of `Dbl` round as doubles do: `0.1 + 0.2` is
`0.30000000000000004`, `1 / 3` is `0.3333333333333333`, `Math.hypot(1, 1)` is
`1.4142135623730951`, `Math.hypot(3, -4)` is 5 and `180 / Math.PI` is
`57.29577951308232`. -/
theorem dbl_rounding_samples :
    dbl 3602879701896397 55 + dbl 3602879701896397 54 = dbl 1351079888211149 52 ∧
    dbl 1 0 / dbl 3 0 = dbl 6004799503160661 54 ∧
    doubleMath.hypot (dbl 1 0) (dbl 1 0) = dbl 6369051672525773 52 ∧
    doubleMath.hypot (dbl 3 0) (dbl (-4) 0) = dbl 5 0 ∧
    ((180 : Nat) : Dbl) / doubleMath.PI = dbl 1007958012753983 44 := by
  decide!

/-- The partial sums of the arctangent series enclose the arctangent: for
`0 ≤ x < 1` an even number of terms is a lower bound and an odd number an
upper bound. -/
theorem arctan_series_bounds (x : ℝ) (h0 : 0 ≤ x) (h1 : x < 1) (k : ℕ) :
    ∑ i ∈ Finset.range (2 * k), (-1 : ℝ) ^ i * (x ^ (2 * i + 1) / ((2 * i + 1 : ℕ) : ℝ)) ≤
      Real.arctan x ∧
    Real.arctan x ≤
      ∑ i ∈ Finset.range (2 * k + 1),
        (-1 : ℝ) ^ i * (x ^ (2 * i + 1) / ((2 * i + 1 : ℕ) : ℝ)) := by
  have hs := Real.hasSum_arctan (x := x) (by rw [Real.norm_eq_abs, abs_of_nonneg h0]; exact h1)
  have ht := hs.tendsto_sum_nat
  have heq : (fun n : ℕ => (-1 : ℝ) ^ n * x ^ (2 * n + 1) / ((2 * n + 1 : ℕ) : ℝ)) =
      fun n : ℕ => (-1 : ℝ) ^ n * (x ^ (2 * n + 1) / ((2 * n + 1 : ℕ) : ℝ)) := by
    funext n
    rw [mul_div_assoc]
  rw [heq] at ht
  have hanti : Antitone (fun n : ℕ => x ^ (2 * n + 1) / ((2 * n + 1 : ℕ) : ℝ)) := by
    apply antitone_nat_of_succ_le
    intro n
    have hp : x ^ (2 * (n + 1) + 1) ≤ x ^ (2 * n + 1) :=
      pow_le_pow_of_le_one h0 (le_of_lt h1) (by omega)
    have hd : (((2 * n + 1 : ℕ)) : ℝ) ≤ ((2 * (n + 1) + 1 : ℕ) : ℝ) := by
      exact_mod_cast (by omega : 2 * n + 1 ≤ 2 * (n + 1) + 1)
    have hpos : (0 : ℝ) < ((2 * n + 1 : ℕ) : ℝ) := by exact_mod_cast (by omega : 0 < 2 * n + 1)
    exact div_le_div₀ (pow_nonneg h0 _) hp hpos hd
  exact ⟨hanti.alternating_series_le_tendsto ht k, hanti.tendsto_le_alternating_series ht k⟩

/-- The first listed value of `Math.atan2` is the double nearest to the exact
angle.  The second argument, dot, is positive, so the angle is the arctangent
of det / dot; the listed value 0.3490658503988659 is within `2^-55` of it,
half the gap between neighbouring doubles between 0.25 and 0.5. -/
theorem atan2_first_nearest :
    doubleMath.atan2 (dbl 7746336224441921 42) (dbl 1330180241259847 38) =
      dbl 6288211335136391 54 ∧
    |Real.arctan ((7746336224441921 / 2 ^ 42) / (1330180241259847 / 2 ^ 38)) -
      6288211335136391 / 2 ^ 54| < 1 / 2 ^ 55 := by
  refine ⟨by decide!, ?_⟩
  have hb := arctan_series_bounds ((7746336224441921 / 2 ^ 42) / (1330180241259847 / 2 ^ 38))
    (by norm_num) (by norm_num) 10
  rw [abs_lt]
  obtain ⟨hlo, hhi⟩ := hb
  constructor
  · refine lt_of_lt_of_le ?_ (sub_le_sub_right hlo _)
    simp only [Finset.sum_range_succ, Finset.sum_range_zero]
    norm_num
  · refine lt_of_le_of_lt (sub_le_sub_right hhi _) ?_
    simp only [Finset.sum_range_succ, Finset.sum_range_zero]
    norm_num

/-- The second listed value of `Math.atan2` is the double nearest to the exact
angle: 0.3490658503988658 is within `2^-55` of the arctangent of det / dot. -/
theorem atan2_second_nearest :
    doubleMath.atan2 (dbl 2406752796929195 47) (dbl 3306249481886111 46) =
      dbl 6288211335136389 54 ∧
    |Real.arctan ((2406752796929195 / 2 ^ 47) / (3306249481886111 / 2 ^ 46)) -
      6288211335136389 / 2 ^ 54| < 1 / 2 ^ 55 := by
  refine ⟨by decide!, ?_⟩
  have hb := arctan_series_bounds ((2406752796929195 / 2 ^ 47) / (3306249481886111 / 2 ^ 46))
    (by norm_num) (by norm_num) 10
  rw [abs_lt]
  obtain ⟨hlo, hhi⟩ := hb
  constructor
  · refine lt_of_lt_of_le ?_ (sub_le_sub_right hlo _)
    simp only [Finset.sum_range_succ, Finset.sum_range_zero]
    norm_num
  · refine lt_of_le_of_lt (sub_le_sub_right hhi _) ?_
    simp only [Finset.sum_range_succ, Finset.sum_range_zero]
    norm_num

/-- The length `Math.hypot(-76.125, -69.375)` of the movement from GATE to A
is the double nearest to the exact length: 102.99469039712679 is within
`2^-47` of it, half the gap between neighbouring doubles between 64 and 128. -/
theorem hypot_run_nearest :
    doubleMath.hypot (dbl (-609) 3) (dbl (-555) 3) = dbl 3623803510106561 45 ∧
    |Real.sqrt ((-609 / 2 ^ 3) * (-609 / 2 ^ 3) + (-555 / 2 ^ 3) * (-555 / 2 ^ 3)) -
      3623803510106561 / 2 ^ 45| < 1 / 2 ^ 47 := by
  refine ⟨by decide!, ?_⟩
  rw [abs_lt]
  constructor
  · rw [neg_lt_sub_iff_lt_add, ← sub_lt_iff_lt_add']
    rw [Real.lt_sqrt (by norm_num)]
    norm_num
  · rw [sub_lt_iff_lt_add']
    rw [Real.sqrt_lt' (by norm_num)]
    norm_num

/-- The constant `Math.PI` of `doubleMath` is the double nearest to π: it is
within `2^-52` of it, half the gap between neighbouring doubles between 2
and 4. -/
theorem pi_double_nearest :
    doubleMath.PI = dbl 884279719003555 48 ∧
    |Real.pi - 884279719003555 / 2 ^ 48| < 1 / 2 ^ 52 := by
  refine ⟨rfl, ?_⟩
  have h1 := Real.pi_gt_d20
  have h2 := Real.pi_lt_d20
  rw [abs_lt]
  constructor
  · norm_num at h1 ⊢
    linarith
  · norm_num at h2 ⊢
    linarith

/-- The numbers of the run on the boundary map.  The movement from A to B is
(-23.20821254463553, -44.2874572591724); the movement from GATE to A has
length 102.99469039712679 and normalizes to
(-0.7391157709827305, -0.6735784119793358).  Against the movement from GATE to
A, dot and det are 4839.167527315465 and 1761.312938570409; against the
normalized one they are 46.98463103929542 and 17.10100716628343. -/
theorem boundary_run_values :
    boundaryB.x - boundaryA.x = dbl (-816566385687155) 45 ∧
    boundaryB.y - boundaryA.y = dbl (-3116452750149931) 46 ∧
    doubleMath.hypot (boundaryA.x - boundaryGate.x) (boundaryA.y - boundaryGate.y) =
      dbl 3623803510106561 45 ∧
    (normalize doubleMath
      { x := boundaryA.x - boundaryGate.x, y := boundaryA.y - boundaryGate.y }).x =
      dbl (-1664340755390741) 51 ∧
    (normalize doubleMath
      { x := boundaryA.x - boundaryGate.x, y := boundaryA.y - boundaryGate.y }).y =
      dbl (-3033527485194947) 52 ∧
    (boundaryA.x - boundaryGate.x) * (boundaryB.x - boundaryA.x) +
      (boundaryA.y - boundaryGate.y) * (boundaryB.y - boundaryA.y) =
      dbl 1330180241259847 38 ∧
    (boundaryA.x - boundaryGate.x) * (boundaryB.y - boundaryA.y) -
      (boundaryA.y - boundaryGate.y) * (boundaryB.x - boundaryA.x) =
      dbl 7746336224441921 42 ∧
    dbl (-1664340755390741) 51 * (boundaryB.x - boundaryA.x) +
      dbl (-3033527485194947) 52 * (boundaryB.y - boundaryA.y) =
      dbl 3306249481886111 46 ∧
    dbl (-1664340755390741) 51 * (boundaryB.y - boundaryA.y) -
      dbl (-3033527485194947) 52 * (boundaryB.x - boundaryA.x) =
      dbl 2406752796929195 47 := by
  decide!

/-- C18 fails in double arithmetic: on the boundary map GATE(0, 0),
A(-76.125, -69.375), B(-99.33321254463553, -113.6624572591724), whose
consecutive positions are distinct, `extractDirections` labels the step from A
to B FORWARD, while `directionFromHeading` applied to the movement vector from
GATE to A and the movement vector from A to B gives LEFT.  From the movement
vector itself the signed angle is exactly 20 degrees; from the normalized one,
which the loop keeps as heading, it is 19.999999999999993 degrees. -/
theorem normalized_heading_changes_label :
    extractDirections doubleMath boundaryGraph { x := 0, y := dbl (-1) 0 }
        ["GATE", "A", "B"] =
      .ok [⟨"GATE", "A", .START_FORWARD⟩, ⟨"A", "B", .FORWARD⟩] ∧
    directionFromHeading doubleMath
      { x := boundaryA.x - boundaryGate.x, y := boundaryA.y - boundaryGate.y }
      { x := boundaryB.x - boundaryA.x, y := boundaryB.y - boundaryA.y } = .LEFT ∧
    signedAngle doubleMath
      { x := boundaryA.x - boundaryGate.x, y := boundaryA.y - boundaryGate.y }
      { x := boundaryB.x - boundaryA.x, y := boundaryB.y - boundaryA.y } = dbl 20 0 ∧
    signedAngle doubleMath
      (normalize doubleMath
        { x := boundaryA.x - boundaryGate.x, y := boundaryA.y - boundaryGate.y })
      { x := boundaryB.x - boundaryA.x, y := boundaryB.y - boundaryA.y } =
        dbl 2814749767106559 47 ∧
    boundaryGate.x ≠ boundaryA.x ∧ boundaryA.x ≠ boundaryB.x := by
  decide!

/-- C18, amended: on a path of nodes of the graph, under any arithmetic, every
step after the first is labelled by `directionFromHeading` applied to the
normalized movement vector of the step before it and to its own movement
vector; and in exact arithmetic, that is over the reals with the Euclidean
`hypot` and the two-argument arctangent, when the step before it joins two
nodes at distinct positions, the label is also the one `directionFromHeading`
gives for the movement vector of the step before it, not normalized. -/
theorem later_steps_follow_normalized_movement {R : Type} [Zero R] [Add R] [Sub R] [Mul R]
    [Div R] [NatCast R] [LT R] [@DecidableRel R (· < ·)]
    (M : JSMath R) (graph : Graph R) (userHeading : Vec R) (path : List String)
    (hk : ∀ u ∈ path, (getNode graph u).isSome = true) :
    (∃ steps, extractDirections M graph userHeading path = .ok steps ∧
      ∀ (k : Nat) (a b c : String) (na nb nc : Node R),
        path[k]? = some a → path[k + 1]? = some b → path[k + 2]? = some c →
        getNode graph a = some na → getNode graph b = some nb → getNode graph c = some nc →
        ∃ step, steps[k + 1]? = some step ∧ step.from_ = b ∧ step.to_ = c ∧
          step.action = directionFromHeading M
            (normalize M { x := nb.x - na.x, y := nb.y - na.y })
            { x := nc.x - nb.x, y := nc.y - nb.y }) ∧
    (∀ (E : JSMath ℝ), (∀ a b, E.hypot a b = Real.sqrt (a * a + b * b)) →
      (∀ y x, E.atan2 y x = Complex.arg ⟨x, y⟩) →
      ∀ (realGraph : Graph ℝ) (realHeading : Vec ℝ),
        (∀ u ∈ path, (getNode realGraph u).isSome = true) →
        ∃ steps, extractDirections E realGraph realHeading path = .ok steps ∧
          ∀ (k : Nat) (a b c : String) (na nb nc : Node ℝ),
            path[k]? = some a → path[k + 1]? = some b → path[k + 2]? = some c →
            getNode realGraph a = some na → getNode realGraph b = some nb →
            getNode realGraph c = some nc →
            (na.x ≠ nb.x ∨ na.y ≠ nb.y) →
            ∃ step, steps[k + 1]? = some step ∧ step.from_ = b ∧ step.to_ = c ∧
              step.action = directionFromHeading E
                { x := nb.x - na.x, y := nb.y - na.y }
                { x := nc.x - nb.x, y := nc.y - nb.y }) := by
  constructor
  · obtain ⟨steps, hsteps, _, _⟩ := extractLoop_ok M graph path 1 userHeading hk
    refine ⟨steps, hsteps, ?_⟩
    intro k a b c na nb nc h0 h1 h2 ha hb hc
    exact extractLoop_later_action M graph path 1 userHeading steps
      (le_refl 1) hsteps k a b c na nb nc h0 h1 h2 ha hb hc
  · intro E hhyp hatan realGraph realHeading hkr
    exact later_steps_follow_previous_movement E hhyp hatan realGraph realHeading path hkr

theorem later_steps_follow_normalized_movement_witness :
    (∀ u ∈ ["GATE", "A", "B"], (getNode boundaryGraph u).isSome = true) ∧
    ∃ steps, extractDirections doubleMath boundaryGraph { x := 0, y := dbl (-1) 0 }
        ["GATE", "A", "B"] = .ok steps ∧
      ∀ (k : Nat) (a b c : String) (na nb nc : Node Dbl),
        ["GATE", "A", "B"][k]? = some a → ["GATE", "A", "B"][k + 1]? = some b →
        ["GATE", "A", "B"][k + 2]? = some c →
        getNode boundaryGraph a = some na → getNode boundaryGraph b = some nb →
        getNode boundaryGraph c = some nc →
        ∃ step, steps[k + 1]? = some step ∧ step.from_ = b ∧ step.to_ = c ∧
          step.action = directionFromHeading doubleMath
            (normalize doubleMath { x := nb.x - na.x, y := nb.y - na.y })
            { x := nc.x - nb.x, y := nc.y - nb.y } :=
  ⟨by decide, (later_steps_follow_normalized_movement doubleMath boundaryGraph
    { x := 0, y := dbl (-1) 0 } ["GATE", "A", "B"] (by decide)).1⟩

/-! ## The sample scenario -/

/-- On the sample map, with a non-negative `hypot`, the search from GATE to B
returns `[GATE, A, B]`. -/
theorem sample_search (M : JSMath ℝ) (hnn : ∀ a b, 0 ≤ M.hypot a b) (fuel : Nat) :
    aStar M sampleGraphReal (fuel + 3) "GATE" "B" = .ok (some ["GATE", "A", "B"]) := by
  have hGA : ("GATE" : String) ≠ "A" := by decide
  have hAG : ("A" : String) ≠ "GATE" := by decide
  have hGB : ("GATE" : String) ≠ "B" := by decide
  have hBG : ("B" : String) ≠ "GATE" := by decide
  have hAB : ("A" : String) ≠ "B" := by decide
  have hBA : ("B" : String) ≠ "A" := by decide
  have hE : ("GATE" : String) ≠ "" := by decide
  have hE2 : ("A" : String) ≠ "" := by decide
  have hn1 : ¬ (((M.hypot 0 10 : ℝ) : WithTop ℝ) + ((M.hypot 0 (-10) : ℝ) : WithTop ℝ) < 0) := by
    rw [← WithTop.coe_add, ← WithTop.coe_zero, WithTop.coe_lt_coe, not_lt]
    exact add_nonneg (hnn _ _) (hnn _ _)
  have hn2 : ((M.hypot 0 10 : ℝ) : WithTop ℝ) + ((M.hypot 10 0 : ℝ) : WithTop ℝ) < ⊤ := by
    rw [← WithTop.coe_add]
    exact WithTop.coe_lt_top _
  simp [aStar, sampleGraphReal, heuristic, getNode, List.lookup, aStarLoop, pickCurrent,
    relaxAll, relax, hGA, hAG, hGB, hBG, hAB, hBA, hE, hE2, setAdd, reconstructPath,
    reconstructLoop, hn1, hn2]

/-- Over the reals, the Euclidean length of `(0, 10)` is 10, so normalizing
the movement from GATE to A gives the heading `(0, 1)`. -/
theorem sample_heading (M : JSMath ℝ)
    (hhyp : ∀ a b, M.hypot a b = Real.sqrt (a * a + b * b)) :
    normalize M { x := 0 - 0, y := 10 - 0 } = { x := 0, y := 1 } := by
  have h100 : Real.sqrt ((0 - 0) * (0 - 0) + (10 - 0) * (10 - 0)) = 10 := by
    have : ((0 : ℝ) - 0) * (0 - 0) + (10 - 0) * (10 - 0) = 10 * 10 := by norm_num
    rw [this, Real.sqrt_mul_self (by norm_num)]
  simp only [normalize, hhyp, h100]
  norm_num

/-- Over the reals with the two-argument arctangent, the signed angle from the
heading `(0, 1)` to the movement `(10, 0)` is -90 degrees. -/
theorem sample_angle (M : JSMath ℝ)
    (hatan : ∀ y x, M.atan2 y x = Complex.arg ⟨x, y⟩) (hpi : M.PI = Real.pi) :
    signedAngle M { x := 0, y := 1 } { x := 10, y := 0 } = -90 := by
  have harg : Complex.arg ⟨(0 : ℝ) * 10 + 1 * 0, 0 * 0 - 1 * 10⟩ = -(Real.pi / 2) := by
    rw [Complex.arg_eq_neg_pi_div_two_iff]
    constructor <;> norm_num
  simp only [signedAngle, hatan, hpi, harg]
  have hpi0 : Real.pi ≠ 0 := Real.pi_ne_zero
  field_simp
  ring

/-- The turn from the heading `(0, 1)` to the movement `(10, 0)` is labelled RIGHT. -/
theorem sample_turn (M : JSMath ℝ)
    (hatan : ∀ y x, M.atan2 y x = Complex.arg ⟨x, y⟩) (habs : ∀ x, M.abs x = |x|)
    (hpi : M.PI = Real.pi) :
    directionFromHeading M { x := 0, y := 1 } { x := 10 - 0, y := 10 - 10 } = .RIGHT := by
  have hmv : ({ x := 10 - 0, y := 10 - 10 } : Vec ℝ) = { x := 10, y := 0 } := by norm_num
  rw [hmv]
  simp only [directionFromHeading, sample_angle M hatan hpi, habs]
  norm_num

/-- C14: on the sample map over the reals, with the Euclidean `hypot`, the
two-argument arctangent, the absolute value and π: from GATE with heading
`(0, -1)`, `navigateTo("B")` finds the path `[GATE, A, B]` and returns the
step from GATE to A labelled START_FORWARD; `onNodeReached("A")` then returns
the step from A to B labelled RIGHT, the label of the signed angle from the
heading `(0, 1)` to the movement `(10, 0)`, which is -90 degrees. -/
theorem sample_scenario (M : JSMath ℝ)
    (hhyp : ∀ a b, M.hypot a b = Real.sqrt (a * a + b * b))
    (hatan : ∀ y x, M.atan2 y x = Complex.arg ⟨x, y⟩) (habs : ∀ x, M.abs x = |x|)
    (hpi : M.PI = Real.pi) (fuel : Nat) :
    aStar M sampleGraphReal (fuel + 3) "GATE" "B" = .ok (some ["GATE", "A", "B"]) ∧
    navigateTo M sampleGraphReal (fuel + 3) { x := 0, y := -1 } initialSession "B" =
      ({ activeDirections := [⟨"GATE", "A", .START_FORWARD⟩, ⟨"A", "B", .RIGHT⟩],
         currentStepIndex := 0, currentTargetNode := some "A", startNode := "GATE" },
        .ret (some ⟨"GATE", "A", .START_FORWARD⟩)) ∧
    onNodeReached sampleGraphReal
        { activeDirections := [⟨"GATE", "A", .START_FORWARD⟩, ⟨"A", "B", .RIGHT⟩],
          currentStepIndex := 0, currentTargetNode := some "A", startNode := "GATE" } "A" =
      ({ activeDirections := [⟨"GATE", "A", .START_FORWARD⟩, ⟨"A", "B", .RIGHT⟩],
         currentStepIndex := 1, currentTargetNode := some "B", startNode := "A" },
        some ⟨"A", "B", .RIGHT⟩) ∧
    normalize M { x := 0 - 0, y := 10 - 0 } = { x := 0, y := 1 } ∧
    signedAngle M { x := 0, y := 1 } { x := 10, y := 0 } = -90 := by
  have hnn : ∀ a b, 0 ≤ M.hypot a b := fun a b => by rw [hhyp]; exact Real.sqrt_nonneg _
  have hsearch := sample_search M hnn fuel
  have hhead := sample_heading M hhyp
  have hturn := sample_turn M hatan habs hpi
  refine ⟨hsearch, ?_, ?_, hhead, sample_angle M hatan hpi⟩
  · have hB : getNode sampleGraphReal "B" = some ⟨10, 10, ["A"]⟩ := by
      simp [getNode, sampleGraphReal, List.lookup]
    have hA : getNode sampleGraphReal "A" = some ⟨0, 10, ["GATE", "B"]⟩ := by
      simp [getNode, sampleGraphReal, List.lookup]
    have hG : getNode sampleGraphReal "GATE" = some ⟨0, 0, ["A"]⟩ := by
      simp [getNode, sampleGraphReal, List.lookup]
    have hext : extractDirections M sampleGraphReal { x := 0, y := -1 } ["GATE", "A", "B"] =
        .ok [⟨"GATE", "A", .START_FORWARD⟩, ⟨"A", "B", .RIGHT⟩] := by
      simp only [extractDirections, extractLoop, hA, hG, hB, hhead, hturn]
      simp
    simp [navigateTo, hB, initialSession, hsearch, hext]
  · have hA : getNode sampleGraphReal "A" = some ⟨0, 10, ["GATE", "B"]⟩ := by
      simp [getNode, sampleGraphReal, List.lookup]
    simp [onNodeReached, setStartNode, hA, advanceStep]

theorem sample_scenario_witness :
    (∀ a b, (⟨fun a b => Real.sqrt (a * a + b * b), fun y x => Complex.arg ⟨x, y⟩,
        fun a => |a|, Real.pi⟩ : JSMath ℝ).hypot a b = Real.sqrt (a * a + b * b)) ∧
    (∀ y x, (⟨fun a b => Real.sqrt (a * a + b * b), fun y x => Complex.arg ⟨x, y⟩,
        fun a => |a|, Real.pi⟩ : JSMath ℝ).atan2 y x = Complex.arg ⟨x, y⟩) ∧
    (∀ x, (⟨fun a b => Real.sqrt (a * a + b * b), fun y x => Complex.arg ⟨x, y⟩,
        fun a => |a|, Real.pi⟩ : JSMath ℝ).abs x = |x|) ∧
    (⟨fun a b => Real.sqrt (a * a + b * b), fun y x => Complex.arg ⟨x, y⟩,
        fun a => |a|, Real.pi⟩ : JSMath ℝ).PI = Real.pi ∧
    navigateTo (⟨fun a b => Real.sqrt (a * a + b * b), fun y x => Complex.arg ⟨x, y⟩,
        fun a => |a|, Real.pi⟩ : JSMath ℝ) sampleGraphReal (1 + 3) { x := 0, y := -1 }
        initialSession "B" =
      ({ activeDirections := [⟨"GATE", "A", .START_FORWARD⟩, ⟨"A", "B", .RIGHT⟩],
         currentStepIndex := 0, currentTargetNode := some "A", startNode := "GATE" },
        .ret (some ⟨"GATE", "A", .START_FORWARD⟩)) :=
  ⟨fun _ _ => rfl, fun _ _ => rfl, fun _ => rfl, rfl,
    (sample_scenario _ (fun _ _ => rfl) (fun _ _ => rfl) (fun _ => rfl) rfl 1).2.1⟩

/-! ## Dangling neighbor references -/

section Dangling

variable {R : Type} [Add R] [Sub R] [LT R] [@DecidableRel R (· < ·)]

/-- The only fault a relaxation pass can end with is a `TypeError`. -/
theorem relax_error (M : JSMath R) (graph : Graph R) (goal cur v : String)
    (st : SearchState R) (e : Fault) (h : relax M graph goal cur st v = .error e) :
    e = .typeError := by
  unfold relax at h
  cases hd : heuristic M (getNode graph cur) (getNode graph v) with
  | error e1 =>
    have : e1 = .typeError := by
      unfold heuristic at hd
      split at hd <;> simp at hd
      exact hd.symm
    simp only [hd, Except.error.injEq] at h
    rw [← h, this]
  | ok d =>
    simp only [hd] at h
    by_cases hlt : st.gScore cur + (d : WithTop R) < st.gScore v
    · rw [if_pos hlt] at h
      cases hh : heuristic M (getNode graph v) (getNode graph goal) with
      | error e1 =>
        have : e1 = .typeError := by
          unfold heuristic at hh
          split at hh <;> simp at hh
          exact hh.symm
        simp only [hh, Except.error.injEq] at h
        rw [← h, this]
      | ok h0 => simp [hh] at h
    · rw [if_neg hlt] at h
      simp at h

/-- The relaxation loop over a neighbor list that holds an id that is not a
key of the graph throws a `TypeError`. -/
theorem relaxAll_dangling (M : JSMath R) (graph : Graph R) (goal cur x : String)
    (hx : getNode graph x = none) :
    ∀ (l : List String) (st : SearchState R), x ∈ l →
      relaxAll M graph goal cur st l = .error .typeError := by
  intro l
  induction l with
  | nil => intro st h; simp at h
  | cons v rest ih =>
    intro st hmem
    rw [relaxAll]
    cases hr : relax M graph goal cur st v with
    | error e =>
      rw [relax_error M graph goal cur v st e hr]
    | ok st1 =>
      simp only
      rcases List.mem_cons.mp hmem with h | h
      · exfalso
        subst h
        unfold relax at hr
        have hd : heuristic M (getNode graph cur) (getNode graph x) = .error .typeError := by
          simp [heuristic, hx]
        simp [hd] at hr
      · exact ih st1 h

end Dangling

/-- C15 fails on the code: when the start node, a key of the graph other than
the goal, lists a neighbor id that is not a key, `aStar` throws a `TypeError`
at `graph[neighbor].x` instead of returning a path or `null`; this holds
whatever the arithmetic. -/
theorem aStar_dangling_throws {R : Type} [Zero R] [Add R] [Sub R] [LT R]
    [@DecidableRel R (· < ·)] (M : JSMath R) (graph : Graph R) (fuel : Nat)
    (start goal x : String) (node : Node R)
    (hstart : getNode graph start = some node)
    (hgoal : (getNode graph goal).isSome = true) (hne : start ≠ goal)
    (hx : x ∈ node.neighbors) (hdangling : getNode graph x = none) :
    aStar M graph (fuel + 1) start goal = .error .typeError := by
  obtain ⟨ng, hng⟩ := Option.isSome_iff_exists.mp hgoal
  have hrel := relaxAll_dangling M graph goal start x hdangling node.neighbors
  simp [aStar, heuristic, hstart, hng, aStarLoop, pickCurrent, hne, hrel _ hx]

theorem aStar_dangling_throws_witness :
    getNode danglingGraph "GATE" = some ⟨0, 0, ["X", "A"]⟩ ∧
    (getNode danglingGraph "A").isSome = true ∧ "GATE" ≠ "A" ∧
    "X" ∈ (⟨0, 0, ["X", "A"]⟩ : Node Int).neighbors ∧
    getNode danglingGraph "X" = none ∧
    aStar taxicabMath danglingGraph (9 + 1) "GATE" "A" = .error .typeError ∧
    aStar taxicabMath danglingRemoved (9 + 1) "GATE" "A" = .ok (some ["GATE", "A"]) :=
  ⟨rfl, by decide, by decide, by decide, rfl,
    aStar_dangling_throws taxicabMath danglingGraph 9 "GATE" "A" "X" ⟨0, 0, ["X", "A"]⟩
      rfl (by decide) (by decide) (by decide) rfl,
    by decide⟩

/-! ## Termination of the search -/

/-- C17: over the reals with `Math.hypot` the Euclidean norm, on a graph whose
listed neighbors are all keys and for a start and a goal that are keys, the
loop of `aStar` ends within as many rounds as the graph has entries, with a
path or with `null`; and a relaxation pass puts the neighbor into the open set
only when it strictly lowers its `gScore`. -/
theorem aStar_terminates (M : JSMath ℝ)
    (hM : ∀ a b, M.hypot a b = Real.sqrt (a * a + b * b))
    (graph : Graph ℝ) (start goal : String)
    (hwf : neighborsKnown graph = true)
    (hstart : (getNode graph start).isSome = true)
    (hgoal : (getNode graph goal).isSome = true)
    (fuel : Nat) (hfuel : graph.length < fuel) :
    (∃ r, aStar M graph fuel start goal = .ok r) ∧
    ∀ (cur v : String) (st st1 : SearchState ℝ),
      relax M graph goal cur st v = .ok st1 →
      st1 = st ∨ (st1.gScore v < st.gScore v ∧ st1.openSet = setAdd st.openSet v) := by
  obtain ⟨hnn, hsub⟩ := hypot_euclid_laws M hM
  obtain ⟨r, hr, _⟩ := aStar_correct M graph start goal hnn hsub hwf hstart hgoal fuel hfuel
  refine ⟨⟨r, hr⟩, ?_⟩
  intro cur v st st1 h
  unfold relax at h
  cases hd : heuristic M (getNode graph cur) (getNode graph v) with
  | error e => simp [hd] at h
  | ok d =>
    simp only [hd] at h
    by_cases hlt : st.gScore cur + (d : WithTop ℝ) < st.gScore v
    · rw [if_pos hlt] at h
      cases hh : heuristic M (getNode graph v) (getNode graph goal) with
      | error e => simp [hh] at h
      | ok h0 =>
        simp only [hh, Except.ok.injEq] at h
        subst h
        right
        exact ⟨by simpa using hlt, rfl⟩
    · rw [if_neg hlt] at h
      simp only [Except.ok.injEq] at h
      exact Or.inl h.symm

theorem aStar_terminates_witness :
    (∀ a b, (⟨fun a b => Real.sqrt (a * a + b * b), fun y x => Complex.arg ⟨x, y⟩,
        fun a => |a|, Real.pi⟩ : JSMath ℝ).hypot a b = Real.sqrt (a * a + b * b)) ∧
    neighborsKnown islandGraphReal = true ∧
    (getNode islandGraphReal "A").isSome = true ∧
    (getNode islandGraphReal "C").isSome = true ∧
    islandGraphReal.length < 5 ∧
    ∃ r, aStar (⟨fun a b => Real.sqrt (a * a + b * b), fun y x => Complex.arg ⟨x, y⟩,
        fun a => |a|, Real.pi⟩ : JSMath ℝ) islandGraphReal 5 "A" "C" = .ok r :=
  ⟨fun _ _ => rfl, by decide, by decide, by decide, by decide,
    (aStar_terminates _ (fun _ _ => rfl) islandGraphReal "A" "C" (by decide) (by decide)
      (by decide) 5 (by decide)).1⟩

/-! ## A movement vector of length zero -/

/-- C16 fails on the code: on the path GATE, A, A2, B, where A and A2 have the
same position, `extractDirections` normalizes the zero vector, which makes
both components of the heading NaN (`0 / 0`), and labels the turn into B
RIGHT; against the heading `(0, 1)` held before the zero-length step the
movement `(-10, 0)` is a LEFT turn. -/
theorem zero_step_heading_not_held :
    extractDirections gridMath zeroStepGraph ⟨.fin 0, .fin (-1)⟩ ["GATE", "A", "A2", "B"] =
      .ok [⟨"GATE", "A", .START_FORWARD⟩, ⟨"A", "A2", .FORWARD⟩, ⟨"A2", "B", .RIGHT⟩] ∧
    (normalize gridMath ⟨.fin 0 - .fin 0, .fin 10 - .fin 10⟩).x = .nan ∧
    (normalize gridMath ⟨.fin 0 - .fin 0, .fin 10 - .fin 10⟩).y = .nan ∧
    (normalize gridMath ⟨.fin 0 - .fin 0, .fin 10 - .fin 0⟩).x = .fin 0 ∧
    (normalize gridMath ⟨.fin 0 - .fin 0, .fin 10 - .fin 0⟩).y = .fin 1 ∧
    directionFromHeading gridMath ⟨.fin 0, .fin 1⟩ ⟨.fin (-10) - .fin 0, .fin 10 - .fin 10⟩ =
      .LEFT := by
  decide

/-! ## The session follows the route -/

/-- C20 fails on the code: on the chain S, "", B, C, from the start node S,
`navigateTo("C")` returns a step, and in the state it leaves the step index 0
points at the step from B to C while the start node is still S.  The search
returned `["B", "C"]`: `reconstructPath` stopped at `cameFrom["B"]`, which is
the empty string. -/
theorem navigateTo_emptyMid_misaligned :
    navigateTo taxicabMath emptyMidGraph 10 initialHeading sessionAtS "C" =
      ({ activeDirections := [⟨"B", "C", .START_FORWARD⟩], currentStepIndex := 0,
         currentTargetNode := some "C", startNode := "S" },
        .ret (some ⟨"B", "C", .START_FORWARD⟩)) ∧
    "C" ≠ sessionAtS.startNode ∧
    neighborsKnown emptyMidGraph = true ∧
    isRoute emptyMidGraph "S" "C" ["S", "", "B", "C"] = true ∧
    aStar taxicabMath emptyMidGraph 10 "S" "C" = .ok (some ["B", "C"]) := by
  decide

/-- A call of `onNodeReached` keeps the session aligned, when the steps are
linked and the current target is a key of the graph. -/
theorem onNodeReached_tracked {R : Type} (graph : Graph R) (s : Session) (n : String)
    (hlinked : StepsLinked s.activeDirections) (haligned : Aligned s)
    (hknown : RouteKnown graph s) :
    StepsLinked (onNodeReached graph s n).1.activeDirections ∧
    Aligned (onNodeReached graph s n).1 := by
  unfold onNodeReached
  by_cases hstray : s.currentTargetNode ≠ some n
  · rw [if_pos hstray]
    exact ⟨hlinked, haligned⟩
  · rw [if_neg hstray]
    have htarget : s.currentTargetNode = some n := not_not.mp hstray
    obtain ⟨nn, hnn⟩ := Option.isSome_iff_exists.mp (hknown.1 n htarget)
    have hset : setStartNode graph s n = { s with startNode := n } := by
      simp [setStartNode, hnn]
    rw [hset]
    constructor
    · rw [advanceStep_activeDirections]
      exact hlinked
    · intro step hstep
      rw [advanceStep_activeDirections, advanceStep_index] at hstep
      simp only at hstep
      have hlt : s.currentStepIndex + 1 < s.activeDirections.length := by
        rcases List.getElem?_eq_some.mp hstep with ⟨h, _⟩
        exact h
      have hprev : s.currentStepIndex < s.activeDirections.length := by omega
      have hp : s.activeDirections[s.currentStepIndex]? =
          some (s.activeDirections[s.currentStepIndex]) := List.getElem?_eq_getElem hprev
      obtain ⟨ht, _⟩ := haligned _ hp
      have hlink := hlinked s.currentStepIndex _ step hp hstep
      have hn : n = (s.activeDirections[s.currentStepIndex]).to_ := by
        rw [htarget] at ht
        exact Option.some.inj ht
      have hget : s.activeDirections.get ⟨s.currentStepIndex + 1, hlt⟩ = step := by
        rcases List.getElem?_eq_some.mp hstep with ⟨_, h⟩
        exact h
      unfold advanceStep
      simp only [not_le.mpr hlt, dite_false, hget]
      exact ⟨by trivial, by rw [hn, hlink]⟩

section Tracking

variable {R : Type} [Zero R] [Add R] [Sub R] [Mul R] [Div R] [NatCast R]
  [LT R] [@DecidableRel R (· < ·)]

/-- Steps extracted from a path are linked, and the first one starts at the
head of the path. -/
theorem extract_linked (M : JSMath R) (graph : Graph R) (userHeading : Vec R)
    (path : List String) (steps : List Step)
    (h : extractDirections M graph userHeading path = .ok steps) :
    StepsLinked steps ∧ ∀ first, steps[0]? = some first → path.head? = some first.from_ := by
  obtain ⟨hfrom, hto⟩ := extractLoop_shape M graph path 1 userHeading steps h
  obtain ⟨_, hidx⟩ := steps_index path steps hfrom hto
  constructor
  · intro k a b ha hb
    have h1 := (hidx k a ha).2
    have h2 := (hidx (k + 1) b hb).1
    rw [h1] at h2
    exact Option.some.inj h2
  · intro first hf
    have h1 := (hidx 0 first hf).1
    cases path with
    | nil => simp at h1
    | cons a tl => simpa using h1

/-- A call of `navigateTo` leads to a state in which the steps are linked and
the session is aligned, when it returns a step or when the state before the
call was such a state. -/
theorem navigateTo_tracked (M : JSMath R) (graph : Graph R) (fuel : Nat)
    (userHeading : Vec R) (hne : getNode graph "" = none) (s : Session) (d : String)
    (hs : (StepsLinked s.activeDirections ∧ Aligned s) ∨
      ∃ first, (navigateTo M graph fuel userHeading s d).2 = .ret (some first)) :
    StepsLinked (navigateTo M graph fuel userHeading s d).1.activeDirections ∧
    Aligned (navigateTo M graph fuel userHeading s d).1 := by
  rcases navigateTo_cases M graph fuel userHeading s d with h | ⟨e, h⟩ |
    ⟨path, _, _, h⟩ | ⟨path, first, more, ha, he, h⟩
  · rw [h] at hs ⊢
    rcases hs with hs | ⟨first, hf⟩
    · exact hs
    · simp at hf
  · rw [h] at hs ⊢
    rcases hs with hs | ⟨first, hf⟩
    · exact hs
    · simp at hf
  · rw [h]
    constructor
    · intro k a b ha
      simp at ha
    · intro step hstep
      simp at hstep
  · rw [h]
    obtain ⟨hlinked, hhead⟩ := extract_linked M graph userHeading path _ he
    refine ⟨hlinked, ?_⟩
    intro step hstep
    have hfs : first = step := by simpa using hstep
    subst hfs
    refine ⟨rfl, ?_⟩
    have hroute := aStar_returns_route M graph fuel s.startNode d path hne ha
    unfold isRoute at hroute
    simp only [Bool.and_eq_true, decide_eq_true_eq] at hroute
    have h1 := hhead first (by simp)
    rw [hroute.1.1] at h1
    exact Option.some.inj h1

/-- On a graph none of whose keys is the empty string, under any arithmetic:
in every state reached from a `navigateTo` that returned a step by calls of
`onNodeReached` and `navigateTo`, when the step index points at a step the
current target is the `to` of that step and the start node is its `from`. -/
theorem tracked_aligned (M : JSMath R) (graph : Graph R) (fuel : Nat)
    (userHeading : Vec R) (hne : getNode graph "" = none) (s : Session)
    (h : TrackedRoute M graph fuel userHeading s) :
    StepsLinked s.activeDirections ∧ Aligned s ∧ RouteKnown graph s := by
  induction h with
  | installed s0 d s first hnav =>
    have h1 := navigateTo_tracked M graph fuel userHeading hne s0 d
      (Or.inr ⟨first, by rw [hnav]⟩)
    have h2 := navigateTo_routeKnown M graph fuel userHeading s0 d
      (Or.inr ⟨first, by rw [hnav]⟩)
    rw [hnav] at h1 h2
    exact ⟨h1.1, h1.2, h2⟩
  | reached s n _ ih =>
    have h1 := onNodeReached_tracked graph s n ih.1 ih.2.1 ih.2.2
    exact ⟨h1.1, h1.2, onNodeReached_routeKnown graph s n ih.2.2⟩
  | renavigated s d _ ih =>
    have h1 := navigateTo_tracked M graph fuel userHeading hne s d (Or.inl ⟨ih.1, ih.2.1⟩)
    exact ⟨h1.1, h1.2, navigateTo_routeKnown M graph fuel userHeading s d (Or.inl ih.2.2)⟩

end Tracking

end Navigation
